import Mathlib

/-!
Verification of the OATutor tooling content-script text layer.

Part 1 embeds the detection predicates of
`src/content_script/validate_fixes.py` (the regular expressions
`validate_chemistry_brackets`, `validate_commas`, `validate_latex_notation`)
as decidable scanners over `List Char`.

Part 2 models the text normalizer `preprocess_text_to_latex`.  Its source
module `process_text.py` is not part of the repository snapshot, so the
normalizer is modelled from the specification (span detection for chemistry
formulas, coordinate tuples and LaTeX scripts; thousand-separator stripping
outside protected spans; LaTeX escaping; `hasLatex` derivation).

Part 3 embeds the per-row processing loop of
`src/content_script/process_public_sheet.py`.
-/

/-! ### Character classes (Python regex semantics, ASCII) -/

/-- Python `\w`: letters, digits and underscore. -/
def isWordC (c : Char) : Bool := c.isAlphanum || c = '_'

/-- Python `\s`: whitespace. -/
def isWhiteC (c : Char) : Bool :=
  c = ' ' || c = '\t' || c = '\n' || c = '\r' || c = '\x0b' || c = '\x0c'

/-- The character class `[-\d\s\w/]` of the coordinate regex in
`validate_commas`. -/
def isCoordClassC (c : Char) : Bool :=
  c = '-' || c.isDigit || isWhiteC c || isWordC c || c = '/'

/-! ### `validate_chemistry_brackets` (validate_fixes.py line 19)

The regex is `\[[A-Z][a-z0-9]*\]|\[[A-Z][a-z]*[0-9]+\]`: an opening bracket,
an uppercase letter, then either a run of lowercase letters and digits and a
closing bracket, or a run of lowercase letters, a nonempty run of digits and
a closing bracket.  `re.search` looks for a match at any start position. -/

/-- Match of the first alternative `\[[A-Z][a-z0-9]*\]` at the head. -/
def chemAlt1At : List Char → Bool
  | '['::u::rest =>
      u.isUpper &&
        (match (rest.span fun c => c.isLower || c.isDigit).2 with
          | ']'::_ => true
          | _ => false)
  | _ => false

/-- Match of the second alternative `\[[A-Z][a-z]*[0-9]+\]` at the head. -/
def chemAlt2At : List Char → Bool
  | '['::u::rest =>
      u.isUpper &&
        (let r1 := (rest.span Char.isLower).2
         let d := (r1.span Char.isDigit).1
         let r2 := (r1.span Char.isDigit).2
         !d.isEmpty &&
           (match r2 with
             | ']'::_ => true
             | _ => false))
  | _ => false

/-- `re.search`: some suffix position matches the head predicate. -/
def searchAny (p : List Char → Bool) : List Char → Bool
  | [] => p []
  | c::t => p (c::t) || searchAny p t

/-- Embeds `validate_chemistry_brackets` from validate_fixes.py: truthiness
of `re.search` with the chemistry regex. -/
def validate_chemistry_brackets (s : String) : Bool :=
  searchAny (fun l => chemAlt1At l || chemAlt2At l) s.data

/-! ### `validate_commas` (validate_fixes.py lines 22-26) -/

/-- The `(?:,\d{3})+\b` part of the thousand-separator regex, with the
trailing word boundary.  After a complete `,ddd` group the match succeeds
when the next character is not a word character (or the input ends);
otherwise the only way to continue is another `,ddd` group, which is
impossible when the next character is a word character, so the scan fails
there. -/
def groupsRest : List Char → Bool
  | ','::a::b::c::r =>
      a.isDigit && b.isDigit && c.isDigit &&
        (match r with
          | [] => true
          | d::_ => !isWordC d || groupsRest r)
  | _ => false

/-- Match of `\d{1,3}(?:,\d{3})+\b` at the head (the leading `\b` is the
caller's responsibility).  The digits before the first comma are a maximal
digit run, so the run must have length 1 to 3. -/
def thousandAt (l : List Char) : Bool :=
  let d := (l.span Char.isDigit).1
  let r := (l.span Char.isDigit).2
  !d.isEmpty && d.length ≤ 3 && groupsRest r

/-- Word-boundary test for a match starting after `prev`. -/
def boundaryOK : Option Char → Bool
  | none => true
  | some p => !isWordC p

/-- Does `\b\d{1,3}(?:,\d{3})+\b` match anywhere? (`prev` is the character
before the current position.) -/
def thousandSearchAux : Option Char → List Char → Bool
  | _, [] => false
  | prev, c::t => (boundaryOK prev && thousandAt (c::t)) || thousandSearchAux (some c) t

/-- Truthiness of `re.search(r'\b\d{1,3}(?:,\d{3})+\b', text)`. -/
def thousandSearch (s : String) : Bool := thousandSearchAux none s.data

/-- Number of positions at which the thousand-separator pattern matches.
Zero exactly when `thousandSearch` is false. -/
def thousandCountAux : Option Char → List Char → Nat
  | _, [] => 0
  | prev, c::t =>
      (if boundaryOK prev && thousandAt (c::t) then 1 else 0) + thousandCountAux (some c) t

/-- Number of match positions of the thousand-separator pattern. -/
def thousandCount (s : String) : Nat := thousandCountAux none s.data

/-- Match of `[\[\(][-\d\s\w/]+,[-\d\s\w/]+[\)\]]` at the head: an opening
bracket or parenthesis, a nonempty class run, a comma, a nonempty class run,
and a closing parenthesis or bracket.  The runs cannot contain the comma or
the closing characters, so the greedy scan is the only possible match. -/
def coordAt : List Char → Bool
  | c::rest =>
      (c = '[' || c = '(') &&
        (let r1 := (rest.span isCoordClassC).1
         let t1 := (rest.span isCoordClassC).2
         !r1.isEmpty &&
           (match t1 with
             | ','::t2 =>
                 let r2 := (t2.span isCoordClassC).1
                 let t3 := (t2.span isCoordClassC).2
                 !r2.isEmpty &&
                   (match t3 with
                     | c2::_ => c2 = ')' || c2 = ']'
                     | [] => false)
             | _ => false))
  | [] => false

/-- Truthiness of the coordinate part of `validate_commas`. -/
def coordSearch (s : String) : Bool := searchAny coordAt s.data

/-- Embeds `validate_commas` from validate_fixes.py: the pair
`(has_thousand_sep, has_coordinates)` as truth values. -/
def validate_commas (s : String) : Bool × Bool :=
  (thousandSearch s, coordSearch s)

/-! ### `validate_latex_notation` (validate_fixes.py lines 28-32) -/

/-- Match of `\^{[^}]+}` at the head: the characters `^` and `{`, a
nonempty run of non-`}` characters, and `}`. -/
def superAt : List Char → Bool
  | c::c2::rest =>
      c = '^' && c2 = '{' &&
        !((rest.span fun x => !(x = '}')).1).isEmpty &&
        !((rest.span fun x => !(x = '}')).2).isEmpty
  | _ => false

/-- Match of `_{[^}]+}` at the head. -/
def subAt : List Char → Bool
  | c::c2::rest =>
      c = '_' && c2 = '{' &&
        !((rest.span fun x => !(x = '}')).1).isEmpty &&
        !((rest.span fun x => !(x = '}')).2).isEmpty
  | _ => false

/-- Embeds the `validate_latex_notation` function of validate_fixes.py
(the name is shortened): the pair `(has_super, has_sub)` as truth values. -/
def validate_latex_scripts (s : String) : Bool × Bool :=
  (searchAny superAt s.data, searchAny subAt s.data)

example : validate_chemistry_brackets ("Compute [CH3]+ concentration") = false := by decide
example : validate_chemistry_brackets ("[Na] ion") = true := by decide
example : coordSearch ("(3, -2]") = true := by decide
example : thousandSearch ("1,23,456") = true := by decide
example : thousandCount ("The answer is 12,500 units") = 1 := by decide
example : thousandCount ("The answer is 12500 units") = 0 := by decide
example : validate_chemistry_brackets ("[Na, Cl]") = false := by decide
example : coordSearch ("[Na, Cl]") = true := by decide
example : validate_latex_scripts ("x^{2+} is the ion") = (true, false) := by decide

/-! ### The text normalizer, modelled from the specification

`preprocess_text_to_latex` lives in `process_text.py`, which is not part of
the repository snapshot; only its callers are.  The definitions below are
modelled from the specification (spec.md sections 3, 4.1 and 7). -/

/-- Modelled from the spec: the `TransformConfig` record.  `tutoring`,
`stepMC` and `verbosity` are reserved flags with no effect on
normalization; `renderLatex` enables LaTeX-safe escaping outside protected
spans. -/
structure TransformConfig where
  tutoring : Bool
  stepMC : Bool
  renderLatex : Bool
  verbosity : Bool
deriving DecidableEq

/-- Modelled from the spec: a chemistry charge-suffix character (`+`, `-`,
digits). -/
def isChargeC (c : Char) : Bool := c = '+' || c = '-' || c.isDigit

/-- Modelled from the spec: a coordinate-tuple token character
("alphanumeric/sign/space/slash"). -/
def isTupC (c : Char) : Bool := c.isAlphanum || c = '-' || c = ' ' || c = '/'

/-- A coordinate-tuple token character or the separating comma. -/
def isTupCC (c : Char) : Bool := isTupC c || c = ','

/-- Does the list contain two adjacent commas? -/
def hasCC : List Char → Bool
  | a::b::t => (a = ',' && b = ',') || hasCC (b::t)
  | _ => false

/-- Modelled from the spec: the bracket content `p` parses as two or more
comma-separated nonempty tokens.  Equivalently: it contains a comma, does
not begin or end with one, and has no two adjacent commas. -/
def partsOK (p : List Char) : Bool :=
  p.head? != some ',' && p.getLast? != some ',' && !hasCC p && p.contains ','

/-- Modelled from the spec: chemistry-formula span detection at the text
following an opening `[`: an uppercase letter, a run of letters/digits, the
closing `]`, and an adjoining charge suffix.  Returns
`(content, suffix, after)`. -/
def chemParse : List Char → Option (List Char × List Char × List Char)
  | u::rest =>
      if u.isUpper then
        match (rest.span Char.isAlphanum).2, (rest.span Char.isAlphanum).1 with
        | ']'::r2, a =>
            some (u::a, (r2.span isChargeC).1, (r2.span isChargeC).2)
        | _, _ => none
      else none
  | [] => none

/-- Modelled from the spec: coordinate-tuple span detection at the text
following an opening `[` or `(`: a maximal run of token/comma characters
forming two or more nonempty comma-separated tokens, then a closing `]` or
`)`.  Returns `(content, closer, after)`. -/
def tupParse (l : List Char) : Option (List Char × Char × List Char) :=
  match (l.span isTupCC).2, (l.span isTupCC).1 with
  | c::af, pre =>
      if (c = ')' || c = ']') && partsOK pre then some (pre, c, af) else none
  | [], _ => none

/-- Modelled from the spec: a LaTeX script's brace-delimited group: a
nonempty run without `}` followed by `}`.  Returns `(body, after)`. -/
def braceSplit (l : List Char) : Option (List Char × List Char) :=
  match (l.span fun c => !(c = '}')).1, (l.span fun c => !(c = '}')).2 with
  | b::bs, _::af => some (b::bs, af)
  | _, _ => none

/-- A digit or a separator comma (the characters of a `NumericToken`). -/
def isNumC (c : Char) : Bool := c.isDigit || c = ','

/-- Modelled from the spec: the strict three-digit thousand grouping
`\d{1,3}(,\d{3})+` as an exact shape of a whole numeric token. -/
def groupsExact : List Char → Bool
  | x::a::b::c::r =>
      x = ',' && a.isDigit && b.isDigit && c.isDigit && (r.isEmpty || groupsExact r)
  | _ => false

/-- Strict thousand-separator shape of a whole numeric token. -/
def strictShape (tok : List Char) : Bool :=
  let d := (tok.span Char.isDigit).1
  !d.isEmpty && d.length ≤ 3 && groupsExact (tok.span Char.isDigit).2

/-- Modelled from the spec: thousand-separator stripping of one numeric
token — separator commas are removed when the token has the strict
three-digit-grouping shape, otherwise the token is left untouched. -/
def processTok (tok : List Char) : List Char :=
  if strictShape tok then tok.filter (fun c => !(c = ',')) else tok

/-- Characters escaped by the LaTeX-safe rewriting pass. -/
def isEscC (c : Char) : Bool := c = '%' || c = '&' || c = '#'

/-- Modelled from the spec: one step of the left-to-right normalization
scan on a nonempty input `c :: t`.  Returns the emitted output and the
remaining input.

* a backslash is an escape marker: it and the following character are
  preserved verbatim (escape markers already present are never
  double-escaped);
* `^`/`_` followed by a brace-delimited group is an existing-LaTeX-script
  span, preserved byte-for-byte; a standalone `^`/`_` is escaped when
  `renderLatex` is set;
* at `[`, a chemistry-formula span (with its charge suffix) is tried first,
  then a coordinate-tuple span (the tie-break of spec section 4.1); if both
  fail the bracket is ordinary text;
* at `(`, a coordinate-tuple span is tried;
* a digit starts a numeric token: the maximal run of digits and commas,
  minus trailing commas (which stay ordinary text), is subjected to
  thousand-separator stripping;
* `%`, `&`, `#` are escaped when `renderLatex` is set;
* everything else is ordinary text, copied unchanged. -/
def stepCons (rl : Bool) (c : Char) (t : List Char) : List Char × List Char :=
  if c = '\\' then
    match t with
    | [] => (['\\'], [])
    | d::t2 => (['\\', d], t2)
  else if c = '^' || c = '_' then
    match t with
    | '{'::t2 =>
        match braceSplit t2 with
        | some (b, af) => (c:: '{'::(b ++ ['}']), af)
        | none => (if rl then ['\\', c] else [c], t)
    | _ => (if rl then ['\\', c] else [c], t)
  else if c = '[' then
    match chemParse t with
    | some (co, suf, af) => ('['::(co ++ ']'::suf), af)
    | none =>
        match tupParse t with
        | some (pre, cl, af) => ('['::(pre ++ [cl]), af)
        | none => (['['], t)
  else if c = '(' then
    match tupParse t with
    | some (pre, cl, af) => ('('::(pre ++ [cl]), af)
    | none => (['('], t)
  else if c.isDigit then
    let rn := ((c::t).span isNumC).1
    let rest0 := ((c::t).span isNumC).2
    let tok := (rn.reverse.dropWhile (fun x => x = ',')).reverse
    let trail := (rn.reverse.takeWhile (fun x => x = ',')).reverse
    (processTok tok, trail ++ rest0)
  else if isEscC c then
    (if rl then ['\\', c] else [c], t)
  else ([c], t)

/-- Fuelled left-to-right scan; the fuel is the input length, which the
step function never increases. -/
def goNorm (rl : Bool) : Nat → List Char → List Char
  | _, [] => []
  | 0, _::_ => []
  | fu+1, c::t => (stepCons rl c t).1 ++ goNorm rl fu (stepCons rl c t).2

/-- Modelled from the spec: the whole normalization scan over a character
list. -/
def runNorm (rl : Bool) (l : List Char) : List Char := goNorm rl l.length l

/-- A LaTeX script marker `^{...}` or `_{...}` at the head. -/
def scriptAt : List Char → Bool
  | c::c2::t => (c = '^' || c = '_') && c2 = '{' && (braceSplit t).isSome
  | _ => false

/-- Modelled from the spec: `hasLatex` is derived by scanning the assembled
output for a `^{...}` or `_{...}` script marker. -/
def hasScriptMarker (l : List Char) : Bool := searchAny scriptAt l

/-- Modelled from the spec: the normalizer `preprocess_text_to_latex` of the
missing module `process_text.py`.  Pure and total; returns the normalized
text and the derived `hasLatex` flag.  The `tutoring`, `stepMC` and
`verbosity` flags have no effect on the output. -/
def preprocess_text_to_latex (s : String) (cfg : TransformConfig) : String × Bool :=
  let out := runNorm cfg.renderLatex s.data
  (String.mk out, hasScriptMarker out)

/-- The configuration used by the processing loops (`render_latex="TRUE"`). -/
def cfgTrue : TransformConfig := ⟨false, false, true, false⟩

example : (preprocess_text_to_latex ("Compute [CH3]+ concentration") cfgTrue).1
    = "Compute [CH3]+ concentration" := by decide
example : (preprocess_text_to_latex ("The answer is 12,500 units") cfgTrue).1
    = "The answer is 12500 units" := by decide
example : (preprocess_text_to_latex ("[Na, Cl]") cfgTrue).1 = "[Na, Cl]" := by decide
example : (preprocess_text_to_latex ("x^{2+} is the ion") cfgTrue)
    = ("x^{2+} is the ion", true) := by decide
example : (preprocess_text_to_latex ("1,23,456") cfgTrue).1 = "1,23,456" := by decide
example : (preprocess_text_to_latex ("Point at [3, -2]") cfgTrue).1
    = "Point at [3, -2]" := by decide
example : (preprocess_text_to_latex ("50% of 1,234") cfgTrue).1 = "50\\% of 1234" := by decide

/-! ### The per-row processing loop of `process_public_sheet.py`

`process_public_sheet` loads the sheet into a dataframe, checks the
required columns, and for every row passes the non-NaN values of the
columns `Body Text`, `Answer`, `Title` through
`preprocess_text_to_latex`, counting the fields the normalizer changed.
The results are only counted; nothing is written back, and the loaded
dataframe is returned.  The normalizer is a parameter here, so the
properties of the loop hold for any normalizer. -/

/-- A dataframe row: a cell per column name; `none` is an absent or NaN
value (`pd.notna` fails). -/
structure SheetRow where
  cell : String → Option String

/-- A dataframe: column names and rows. -/
structure DataFrame where
  columns : List String
  rows : List SheetRow

/-- The required columns checked by `process_public_sheet` (line 53). -/
def requiredCols : List String :=
  ["Problem Name", "Row Type", "Title", "Body Text", "Answer", "answerType"]

/-- The columns whose values the processing loop normalizes (line 108). -/
def textFields : List String := ["Body Text", "Answer", "Title"]

/-- The guarded cell access of the loop: `field in df.columns and
pd.notna(row[field])` (line 109). -/
def fieldCall (cols : List String) (r : SheetRow) (fld : String) : Option String :=
  if cols.contains fld then r.cell fld else none

/-- The texts a row sends through the normalizer, in loop order. -/
def rowCalls (cols : List String) (r : SheetRow) : List String :=
  textFields.filterMap (fieldCall cols r)

/-- The contribution of one field of one row to `processed_count`
(lines 110-113): 1 when the normalizer changed the text. -/
def fieldCount (f : String → String × Bool) (cols : List String) (r : SheetRow)
    (fld : String) : Nat :=
  match fieldCall cols r fld with
  | some v => if (f v).1 ≠ v then 1 else 0
  | none => 0

/-- The contribution of one row to `processed_count`. -/
def rowCount (f : String → String × Bool) (cols : List String) (r : SheetRow) : Nat :=
  (textFields.map (fieldCount f cols r)).sum

/-- Embeds `process_public_sheet` (lines 33-120), abstracting over the
normalizer `f`: `none` when a required column is missing (the early
`return`), otherwise the processed count and the returned dataframe. -/
def process_public_sheet (f : String → String × Bool) (df : DataFrame) :
    Option (Nat × DataFrame) :=
  if requiredCols.all (fun c => df.columns.contains c) then
    some ((df.rows.map (rowCount f df.columns)).sum, df)
  else none

/-! ### Substring containment -/

/-- Does `pat` occur as a contiguous substring? -/
def hasSub (pat : List Char) : List Char → Bool := searchAny (fun l => pat.isPrefixOf l)

/-- String-level substring containment. -/
def strContains (s pat : String) : Bool := hasSub pat.data s.data

/-! ### Basic helper lemmas -/

theorem spanFst (p : Char → Bool) (l : List Char) : (l.span p).1 = l.takeWhile p := by
  simp [List.span_eq_take_drop]

theorem spanSnd (p : Char → Bool) (l : List Char) : (l.span p).2 = l.dropWhile p := by
  simp [List.span_eq_take_drop]

theorem dropWhile_head_false {p : Char → Bool} {l : List Char} {x : Char} {xs : List Char}
    (h : l.dropWhile p = x::xs) : p x = false := by
  have h2 := List.head?_dropWhile_not p l
  rw [h] at h2
  simpa using h2

/-- The head of the remainder of a span by `fun x => !(x = '}')` is `}`. -/
theorem dropWhileNeRB_head {l : List Char} {x : Char} {xs : List Char}
    (h : l.dropWhile (fun x => !(x = '}')) = x::xs) : x = '}' := by
  have h2 := dropWhile_head_false h
  simpa using h2

theorem braceSplit_isSome (t : List Char) :
    (braceSplit t).isSome
      = (!((t.span fun x => !(x = '}')).1).isEmpty && !((t.span fun x => !(x = '}')).2).isEmpty) := by
  rcases h1 : t.takeWhile (fun x => !(x = '}')) with _ | ⟨b, bs⟩ <;>
    rcases h2 : t.dropWhile (fun x => !(x = '}')) with _ | ⟨x, xs⟩ <;>
      simp [braceSplit, spanFst, spanSnd, h1, h2]

theorem scriptAt_eq (l : List Char) : scriptAt l = (superAt l || subAt l) := by
  match l with
  | [] => rfl
  | [c] => rfl
  | c::c2::t =>
      simp only [scriptAt, superAt, subAt, braceSplit_isSome]
      by_cases hc1 : c = '^' <;> by_cases hc2 : c = '_' <;> by_cases hcb : c2 = '{' <;>
        simp [hc1, hc2, hcb]

theorem searchAny_or (p q : List Char → Bool) :
    ∀ l, searchAny (fun x => p x || q x) l = (searchAny p l || searchAny q l)
  | [] => rfl
  | c::t => by
      have ih := searchAny_or p q t
      simp only [searchAny]
      rw [ih]
      cases p (c::t) <;> cases q (c::t) <;> simp

theorem searchAny_congr {p q : List Char → Bool} (h : ∀ l, p l = q l) :
    ∀ l, searchAny p l = searchAny q l
  | [] => h []
  | c::t => by
      show (p (c::t) || searchAny p t) = (q (c::t) || searchAny q t)
      rw [h (c::t), searchAny_congr h t]

theorem hasScriptMarker_eq (l : List Char) :
    hasScriptMarker l = (searchAny superAt l || searchAny subAt l) := by
  rw [hasScriptMarker, searchAny_congr scriptAt_eq l, searchAny_or]

/-! ### Claim theorems -/

/-- C1: the chemistry-detection regex
`\[[A-Z][a-z0-9]*\]|\[[A-Z][a-z]*[0-9]+\]` only admits lowercase letters
after the leading capital, so `validate_chemistry_brackets` (and the
identical scan in `process_public_sheet`) returns no match on the inputs
the claim and the function's own docstring name as positives, `[CH3]` and
`[NH4]+`; the spec-modelled normalizer does preserve `[CH3]+` verbatim, as
the claim demands. -/
theorem c1_chemistry_regex_rejects_uppercase_tail :
    validate_chemistry_brackets ("Compute [CH3]+ concentration") = false ∧
    validate_chemistry_brackets ("[NH4]+") = false ∧
    (preprocess_text_to_latex ("Compute [CH3]+ concentration") cfgTrue).1
      = "Compute [CH3]+ concentration" ∧
    strContains ((preprocess_text_to_latex ("Compute [CH3]+ concentration") cfgTrue).1)
      ("[CH3]+") = true := by decide

/-- C3: on `[Na, Cl]` the chemistry regex of `validate_chemistry_brackets`
finds no match, the coordinate regex of `validate_commas` does, and the
spec-modelled normalizer treats the group as a coordinate tuple, keeping
the internal comma (the whole text is returned verbatim). -/
theorem c3_na_cl_coordinate_tie_break :
    validate_chemistry_brackets ("[Na, Cl]") = false ∧
    (validate_commas ("[Na, Cl]")).2 = true ∧
    (preprocess_text_to_latex ("[Na, Cl]") cfgTrue).1 = "[Na, Cl]" := by decide

/-- C4: the spec-modelled normalizer strips the thousand separator of
`12,500`; the output contains `12500` and not `12,500`, the detector
regex `\b\d{1,3}(?:,\d{3})+\b` matches the input, and its match count
drops from one to zero. -/
theorem c4_thousand_separator_stripping :
    (preprocess_text_to_latex ("The answer is 12,500 units") cfgTrue).1
      = "The answer is 12500 units" ∧
    strContains ("The answer is 12500 units") ("12500") = true ∧
    strContains ("The answer is 12500 units") ("12,500") = false ∧
    (validate_commas ("The answer is 12,500 units")).1 = true ∧
    thousandCount ("The answer is 12,500 units") = 1 ∧
    thousandCount ("The answer is 12500 units") = 0 := by decide

/-- C5: the spec-modelled normalizer preserves `^{2+}` and returns
`hasLatex = true` on `x^{2+} is the ion`; in general the returned
`hasLatex` flag is true exactly when the output text contains a `^{...}`
or `_{...}` script marker as matched by the `validate_latex_notation`
regexes. -/
theorem c5_latex_scripts_and_haslatex_flag :
    (preprocess_text_to_latex ("x^{2+} is the ion") cfgTrue).1 = "x^{2+} is the ion" ∧
    (preprocess_text_to_latex ("x^{2+} is the ion") cfgTrue).2 = true ∧
    ∀ (s : String) (cfg : TransformConfig),
      (preprocess_text_to_latex s cfg).2 = true ↔
        ((validate_latex_scripts (preprocess_text_to_latex s cfg).1).1 = true ∨
          (validate_latex_scripts (preprocess_text_to_latex s cfg).1).2 = true) := by
  refine ⟨by decide, by decide, fun s cfg => ?_⟩
  show hasScriptMarker (runNorm cfg.renderLatex s.data) = true ↔ _
  rw [hasScriptMarker_eq]
  show _ ↔ (searchAny superAt (String.mk (runNorm cfg.renderLatex s.data)).data = true ∨
    searchAny subAt (String.mk (runNorm cfg.renderLatex s.data)).data = true)
  cases searchAny superAt (runNorm cfg.renderLatex s.data) <;>
    cases searchAny subAt (runNorm cfg.renderLatex s.data) <;> simp_all

/-- C6 (counterexample to the claim as stated): the thousand-separator
detection pattern `\b\d{1,3}(?:,\d{3})+\b` does fire on a part of
`1,23,456` — the suffix `23,456` matches, because a word boundary follows
the first comma. -/
theorem c6_detector_fires_on_part :
    thousandSearch ("1,23,456") = true := by decide

/-- C6 (amended): the digit run `1,23,456` does not have the strict
three-digit-grouping shape as a whole, and the spec-modelled normalizer
leaves it untouched (with either value of `renderLatex`); the detection
regex nevertheless matches its substring `23,456`. -/
theorem c6_ambiguous_grouping_untouched :
    (preprocess_text_to_latex ("1,23,456") cfgTrue).1 = "1,23,456" ∧
    (preprocess_text_to_latex ("1,23,456") ⟨false, false, false, false⟩).1 = "1,23,456" ∧
    strictShape (("1,23,456").data) = false ∧
    thousandAt (("23,456").data) = true ∧
    thousandSearch ("1,23,456") = true := by decide

/-- C10: the coordinate regex `[\[\(][-\d\s\w/]+,[-\d\s\w/]+[\)\]]` of
`validate_commas` does not require matching delimiters: the group
`(3, -2]`, opened with a parenthesis and closed with a bracket, is
detected as a coordinate tuple. -/
theorem c10_mismatched_delimiters_detected :
    (validate_commas ("(3, -2]")).2 = true ∧
    (validate_commas ("Mark (3, -2] on the axis")).2 = true := by decide

/-- C7: every text the per-row loop sends through the normalizer comes
from one of the columns `Body Text`, `Answer`, `Title`; two rows that
agree on those three columns produce the same normalizer calls and the
same contribution to `processed_count`, for any normalizer — the values
of all other columns have no influence. -/
theorem c7_only_three_columns_normalized :
    (∀ cols r t, t ∈ rowCalls cols r →
        ∃ fld, fld ∈ textFields ∧ fieldCall cols r fld = some t) ∧
    (∀ cols (r r2 : SheetRow), (∀ fld ∈ textFields, r.cell fld = r2.cell fld) →
        rowCalls cols r = rowCalls cols r2) ∧
    (∀ f cols (r r2 : SheetRow), (∀ fld ∈ textFields, r.cell fld = r2.cell fld) →
        rowCount f cols r = rowCount f cols r2) := by
  refine ⟨?_, ?_, ?_⟩
  · intro cols r t ht
    rcases List.mem_filterMap.1 ht with ⟨fld, hmem, heq⟩
    exact ⟨fld, hmem, heq⟩
  · intro cols r r2 h
    have h1 := h "Body Text" (by simp [textFields])
    have h2 := h "Answer" (by simp [textFields])
    have h3 := h "Title" (by simp [textFields])
    simp [rowCalls, textFields, fieldCall, List.filterMap_cons, h1, h2, h3]
  · intro f cols r r2 h
    have h1 := h "Body Text" (by simp [textFields])
    have h2 := h "Answer" (by simp [textFields])
    have h3 := h "Title" (by simp [textFields])
    simp [rowCount, textFields, fieldCount, fieldCall, h1, h2, h3]

/-- A sample row. -/
def rowA : SheetRow :=
  ⟨fun fld =>
    if fld = "Body Text" then some "see [Na, Cl]"
    else if fld = "Answer" then some "12,500"
    else if fld = "Title" then none
    else some "other data"⟩

/-- `rowA` with a different value in every column other than the three
text fields. -/
def rowB : SheetRow :=
  ⟨fun fld =>
    if fld = "Body Text" then some "see [Na, Cl]"
    else if fld = "Answer" then some "12,500"
    else if fld = "Title" then none
    else some "changed"⟩

/-- Witness for C7: two rows that differ only outside the three text
columns make the same normalizer calls and counts. -/
theorem c7_witness :
    rowCalls requiredCols rowA = rowCalls requiredCols rowB ∧
    rowCount (fun s => (s, false)) requiredCols rowA
      = rowCount (fun s => (s, false)) requiredCols rowB :=
  ⟨c7_only_three_columns_normalized.2.1 requiredCols rowA rowB
      (by intro fld h; simp [textFields] at h; rcases h with h | h | h <;> subst h <;> rfl),
    c7_only_three_columns_normalized.2.2 (fun s => (s, false)) requiredCols rowA rowB
      (by intro fld h; simp [textFields] at h; rcases h with h | h | h <;> subst h <;> rfl)⟩

/-- C8: a field whose value is absent/NaN is skipped by the loop's
`pd.notna` guard: the normalizer is never invoked on it and it contributes
nothing to `processed_count`, for any normalizer and any column set. -/
theorem c8_nan_fields_skipped :
    ∀ (f : String → String × Bool) cols (r : SheetRow) fld,
      r.cell fld = none →
        fieldCall cols r fld = none ∧ fieldCount f cols r fld = 0 := by
  intro f cols r fld h
  constructor
  · simp [fieldCall, h]
  · simp [fieldCount, fieldCall, h]

/-- Witness for C8: the `Title` cell of `rowA` is NaN, so it is skipped. -/
theorem c8_witness :
    fieldCall requiredCols rowA "Title" = none ∧
    fieldCount (fun s => (s, false)) requiredCols rowA "Title" = 0 :=
  c8_nan_fields_skipped (fun s => (s, false)) requiredCols rowA "Title" rfl

/-- C9: `process_public_sheet` never writes normalized text back: whenever
it returns (all required columns present), the returned dataframe is the
loaded one, for any normalizer — the transformation results are only
counted and discarded. -/
theorem c9_dataframe_returned_unchanged :
    ∀ (f : String → String × Bool) (df : DataFrame) (n : Nat) (df2 : DataFrame),
      process_public_sheet f df = some (n, df2) → df2 = df := by
  intro f df n df2 h
  unfold process_public_sheet at h
  split at h
  · rw [Option.some.injEq] at h
    exact (congrArg Prod.snd h).symm
  · exact absurd h (by simp)

/-- A sample dataframe with all required columns. -/
def dfA : DataFrame := ⟨requiredCols, [rowA]⟩

/-- Witness for C9: on a concrete sheet whose `Answer` cell `12,500` is
changed by the normalizer, the returned dataframe is still the loaded
one. -/
theorem c9_witness : (1, dfA).2 = dfA :=
  c9_dataframe_returned_unchanged
    (fun s => preprocess_text_to_latex s cfgTrue) dfA 1 dfA (by rfl)

/-! ### Idempotence of the normalizer: parser characterizations -/

/-- The head (if any) fails the predicate. -/
def headNot (p : Char → Bool) : List Char → Prop
  | [] => True
  | x::_ => p x = false

theorem headNot_of_dropWhile {p : Char → Bool} (l : List Char) :
    headNot p (l.dropWhile p) := by
  rcases h : l.dropWhile p with _ | ⟨x, xs⟩
  · trivial
  · exact dropWhile_head_false h

theorem takeWhile_append_stop {p : Char → Bool} {a z : List Char}
    (ha : ∀ y ∈ a, p y) (hz : headNot p z) : (a ++ z).takeWhile p = a := by
  rw [List.takeWhile_append_of_pos ha]
  rcases z with _ | ⟨x, xs⟩
  · simp
  · simp only [headNot] at hz
    simp [List.takeWhile_cons, hz]

theorem dropWhile_append_stop {p : Char → Bool} {a z : List Char}
    (ha : ∀ y ∈ a, p y) (hz : headNot p z) : (a ++ z).dropWhile p = z := by
  rw [List.dropWhile_append_of_pos ha]
  rcases z with _ | ⟨x, xs⟩
  · simp
  · simp only [headNot] at hz
    simp [List.dropWhile_cons, hz]

theorem braceSplit_decomp {t2 b af : List Char} (h : braceSplit t2 = some (b, af)) :
    b ≠ [] ∧ (∀ y ∈ b, (y = '}') = False) ∧ t2 = b ++ '}'::af := by
  rw [braceSplit] at h
  rcases h1 : (t2.span fun c => !(c = '}')).1 with _ | ⟨x, xs⟩ <;>
    rcases h2 : (t2.span fun c => !(c = '}')).2 with _ | ⟨z, zs⟩ <;>
      rw [h1, h2] at h <;> simp only [Option.some.injEq, Prod.mk.injEq,
        reduceCtorEq] at h
  obtain ⟨hb, haf⟩ := h
  rw [spanFst] at h1
  rw [spanSnd] at h2
  have hz : z = '}' := dropWhileNeRB_head h2
  refine ⟨by rw [← hb]; simp, ?_, ?_⟩
  · intro y hy
    rw [← hb] at hy
    rw [← h1] at hy
    have := List.mem_takeWhile_imp hy
    simpa using this
  · have := List.takeWhile_append_dropWhile (p := fun c => !(c = '}')) (l := t2)
    rw [h1, h2, hz] at this
    rw [← hb, ← haf]
    exact this.symm

theorem braceSplit_build {b af : List Char} (hb : b ≠ [])
    (hmem : ∀ y ∈ b, (y = '}') = False) :
    braceSplit (b ++ '}'::af) = some (b, af) := by
  have ha : ∀ y ∈ b, (fun c => !(c = '}')) y = true := by
    intro y hy; simp [hmem y hy]
  have hz : headNot (fun c => !(c = '}')) ('}'::af) := by simp [headNot]
  have h1 : ((b ++ '}'::af).span fun c => !(c = '}')).1 = b := by
    rw [spanFst]; exact takeWhile_append_stop ha hz
  have h2 : ((b ++ '}'::af).span fun c => !(c = '}')).2 = '}'::af := by
    rw [spanSnd]; exact dropWhile_append_stop ha hz
  rw [braceSplit, h1, h2]
  rcases b with _ | ⟨x, xs⟩
  · exact absurd rfl hb
  · rfl

theorem chemParse_decomp {t co suf af : List Char}
    (h : chemParse t = some (co, suf, af)) :
    ∃ u a, t = u :: (a ++ ']'::(suf ++ af)) ∧ co = u::a ∧ u.isUpper ∧
      (∀ y ∈ a, y.isAlphanum) ∧ (∀ y ∈ suf, isChargeC y) ∧ headNot isChargeC af := by
  rcases t with _ | ⟨u, rest⟩
  · exact absurd h (by simp [chemParse])
  rw [chemParse] at h
  by_cases hu : u.isUpper
  · rw [if_pos hu] at h
    split at h
    · rename_i r2 heq
      rw [Option.some.injEq, Prod.mk.injEq, Prod.mk.injEq] at h
      obtain ⟨hco, hsuf, haf⟩ := h
      rw [spanFst] at hco
      rw [spanSnd] at heq
      rw [spanFst] at hsuf
      rw [spanSnd] at haf
      refine ⟨u, rest.takeWhile Char.isAlphanum, ?_, hco.symm, hu, ?_, ?_, ?_⟩
      · have h3 := List.takeWhile_append_dropWhile (p := Char.isAlphanum) (l := rest)
        rw [heq] at h3
        have hr2 : r2 = suf ++ af := by
          have h4 := List.takeWhile_append_dropWhile (p := isChargeC) (l := r2)
          rw [hsuf, haf] at h4
          exact h4.symm
        have h5 : rest = List.takeWhile Char.isAlphanum rest ++ ']' :: (suf ++ af) := by
          rw [← hr2]
          exact h3.symm
        exact congrArg (u :: ·) h5
      · intro y hy
        exact List.mem_takeWhile_imp hy
      · intro y hy
        rw [← hsuf] at hy
        exact List.mem_takeWhile_imp hy
      · rw [← haf]
        exact headNot_of_dropWhile r2
    · exact absurd h (by simp)
  · rw [if_neg hu] at h
    exact absurd h (by simp)

theorem chemParse_build {u : Char} {a suf z : List Char}
    (hu : u.isUpper) (ha : ∀ y ∈ a, y.isAlphanum) (hsuf : ∀ y ∈ suf, isChargeC y)
    (hz : headNot isChargeC z) :
    chemParse (u :: (a ++ ']'::(suf ++ z))) = some (u::a, suf, z) := by
  rw [chemParse, if_pos hu]
  have hrb : headNot Char.isAlphanum (']'::(suf ++ z)) := by
    simp only [headNot]; decide
  have h1 : ((a ++ ']'::(suf ++ z)).span Char.isAlphanum).1 = a := by
    rw [spanFst]; exact takeWhile_append_stop ha hrb
  have h2 : ((a ++ ']'::(suf ++ z)).span Char.isAlphanum).2 = ']'::(suf ++ z) := by
    rw [spanSnd]; exact dropWhile_append_stop ha hrb
  rw [h1, h2]
  have h3 : List.takeWhile isChargeC (suf ++ z) = suf := takeWhile_append_stop hsuf hz
  have h4 : List.dropWhile isChargeC (suf ++ z) = z := dropWhile_append_stop hsuf hz
  simp [spanFst, spanSnd, h3, h4]

theorem tupParse_decomp {l pre af : List Char} {cl : Char}
    (h : tupParse l = some (pre, cl, af)) :
    (∀ y ∈ pre, isTupCC y) ∧ (cl = ')' ∨ cl = ']') ∧ partsOK pre ∧ l = pre ++ cl::af := by
  rw [tupParse] at h
  split at h
  · rename_i c0 af0 heq
    split at h
    · rename_i hcond
      rw [Option.some.injEq, Prod.mk.injEq, Prod.mk.injEq] at h
      obtain ⟨hpre, hcl, haf⟩ := h
      rw [Bool.and_eq_true, Bool.or_eq_true] at hcond
      obtain ⟨hcl0, hparts⟩ := hcond
      subst hcl
      subst haf
      refine ⟨?_, ?_, ?_, ?_⟩
      · intro y hy
        rw [← hpre, spanFst] at hy
        exact List.mem_takeWhile_imp hy
      · rcases hcl0 with h0 | h0
        · exact Or.inl (by simpa using h0)
        · exact Or.inr (by simpa using h0)
      · rw [← hpre]; exact hparts
      · have h3 := List.takeWhile_append_dropWhile (p := isTupCC) (l := l)
        rw [spanSnd] at heq
        rw [heq] at h3
        rw [← hpre, spanFst]
        exact h3.symm
    · exact absurd h (by simp)
  · exact absurd h (by simp)

theorem tupParse_build {pre af : List Char} {cl : Char}
    (hpre : ∀ y ∈ pre, isTupCC y) (hcl : cl = ')' ∨ cl = ']') (hparts : partsOK pre) :
    tupParse (pre ++ cl::af) = some (pre, cl, af) := by
  have hstop : headNot isTupCC (cl::af) := by
    rcases hcl with h | h <;> subst h <;> simp only [headNot] <;> decide
  have h1 : ((pre ++ cl::af).span isTupCC).1 = pre := by
    rw [spanFst]; exact takeWhile_append_stop hpre hstop
  have h2 : ((pre ++ cl::af).span isTupCC).2 = cl::af := by
    rw [spanSnd]; exact dropWhile_append_stop hpre hstop
  rw [tupParse, h1, h2]
  rcases hcl with h | h <;> subst h <;> simp [hparts]

/-- Whether `chemParse` succeeds after an opening bracket whose content is
a coordinate-tuple span does not depend on the text after the closing
delimiter. -/
theorem chemParse_ext {pre : List Char} {cl : Char} {z w : List Char}
    (hpre : ∀ y ∈ pre, isTupCC y) (hcl : cl = ')' ∨ cl = ']')
    (h : chemParse (pre ++ cl::z) = none) : chemParse (pre ++ cl::w) = none := by
  rcases pre with _ | ⟨u, pre2⟩
  · have hu : ¬(cl.isUpper = true) := by
      rcases hcl with h0 | h0 <;> subst h0 <;> decide
    simp only [List.nil_append]
    rw [chemParse, if_neg hu]
  · simp only [List.cons_append] at h ⊢
    by_cases hu : u.isUpper
    · rw [chemParse, if_pos hu] at h ⊢
      by_cases hall : ∀ y ∈ pre2, y.isAlphanum
      · have hstop : headNot Char.isAlphanum (cl::z) := by
          rcases hcl with h0 | h0 <;> subst h0 <;> simp only [headNot] <;> decide
        have hstopw : headNot Char.isAlphanum (cl::w) := by
          rcases hcl with h0 | h0 <;> subst h0 <;> simp only [headNot] <;> decide
        have h2 : ((pre2 ++ cl::z).span Char.isAlphanum).2 = cl::z := by
          rw [spanSnd]; exact dropWhile_append_stop hall hstop
        have h2w : ((pre2 ++ cl::w).span Char.isAlphanum).2 = cl::w := by
          rw [spanSnd]; exact dropWhile_append_stop hall hstopw
        rw [h2] at h
        rw [h2w]
        rcases hcl with h0 | h0
        · subst h0; simp
        · subst h0; simp at h
      · have hne : (pre2.dropWhile Char.isAlphanum) ≠ [] := by
          rw [Ne, List.dropWhile_eq_nil_iff]
          exact hall
        rcases hy : pre2.dropWhile Char.isAlphanum with _ | ⟨y, ys⟩
        · exact absurd hy hne
        have hymem : y ∈ pre2 := by
          have hm : y ∈ pre2.dropWhile Char.isAlphanum := by
            rw [hy]; exact List.mem_cons_self y ys
          exact (List.dropWhile_sublist Char.isAlphanum).subset hm
        have hytup : isTupCC y = true := hpre y (List.mem_cons_of_mem u hymem)
        have hyne : y ≠ ']' := by
          intro h0; subst h0; exact absurd hytup (by decide)
        have hdw : ((pre2 ++ cl::w).span Char.isAlphanum).2 = y :: (ys ++ cl::w) := by
          rw [spanSnd, List.dropWhile_append, hy]
          simp
        rw [hdw]
        split
        · rename_i r2 heq
          obtain ⟨h0, -⟩ := List.cons.inj heq
          exact absurd h0 hyne
        · rfl
    · rw [chemParse, if_neg hu]

/-! ### Branch equations for `stepCons` -/

theorem stepCons_bs_nil (rl : Bool) : stepCons rl '\\' [] = (['\\'], []) := by
  simp [stepCons]

theorem stepCons_bs_cons (rl : Bool) (d : Char) (t2 : List Char) :
    stepCons rl '\\' (d::t2) = (['\\', d], t2) := by
  simp [stepCons]

theorem stepCons_script_span {rl : Bool} {c : Char} {t2 b af : List Char}
    (hc : c = '^' ∨ c = '_') (hb : braceSplit t2 = some (b, af)) :
    stepCons rl c ('{'::t2) = (c:: '{'::(b ++ ['}']), af) := by
  rcases hc with rfl | rfl <;> simp [stepCons, hb]

theorem stepCons_script_brace_fail {rl : Bool} {c : Char} {t2 : List Char}
    (hc : c = '^' ∨ c = '_') (hb : braceSplit t2 = none) :
    stepCons rl c ('{'::t2) = ((if rl then ['\\', c] else [c]), '{'::t2) := by
  rcases hc with rfl | rfl <;> simp [stepCons, hb]

theorem stepCons_script_alone_nil {rl : Bool} {c : Char}
    (hc : c = '^' ∨ c = '_') :
    stepCons rl c [] = ((if rl then ['\\', c] else [c]), []) := by
  rcases hc with rfl | rfl <;> simp [stepCons]

theorem stepCons_script_alone_cons {rl : Bool} {c c2 : Char} {t2 : List Char}
    (hc : c = '^' ∨ c = '_') (h2 : c2 ≠ '{') :
    stepCons rl c (c2::t2) = ((if rl then ['\\', c] else [c]), c2::t2) := by
  rcases hc with rfl | rfl <;>
    · rw [stepCons]
      rw [if_neg (by decide), if_pos (by decide)]
      split
      · rename_i t3 heq
        obtain ⟨h0, -⟩ := List.cons.inj heq
        exact absurd h0 h2
      · rfl

theorem stepCons_chem {rl : Bool} {t co suf af : List Char}
    (h : chemParse t = some (co, suf, af)) :
    stepCons rl '[' t = ('['::(co ++ ']'::suf), af) := by
  simp [stepCons, h]

theorem stepCons_lb_tup {rl : Bool} {t pre af : List Char} {cl : Char}
    (h : chemParse t = none) (h2 : tupParse t = some (pre, cl, af)) :
    stepCons rl '[' t = ('['::(pre ++ [cl]), af) := by
  simp [stepCons, h, h2]

theorem stepCons_lb_plain {rl : Bool} {t : List Char}
    (h : chemParse t = none) (h2 : tupParse t = none) :
    stepCons rl '[' t = (['['], t) := by
  simp [stepCons, h, h2]

theorem stepCons_lp_tup {rl : Bool} {t pre af : List Char} {cl : Char}
    (h2 : tupParse t = some (pre, cl, af)) :
    stepCons rl '(' t = ('('::(pre ++ [cl]), af) := by
  simp [stepCons, h2]

theorem stepCons_lp_plain {rl : Bool} {t : List Char}
    (h2 : tupParse t = none) :
    stepCons rl '(' t = (['('], t) := by
  simp [stepCons, h2]

theorem digit_not_special {c : Char} (h : c.isDigit = true) :
    c ≠ '\\' ∧ c ≠ '^' ∧ c ≠ '_' ∧ c ≠ '[' ∧ c ≠ '(' ∧ isEscC c = false := by
  refine ⟨?_, ?_, ?_, ?_, ?_, ?_⟩
  · intro h0; subst h0; exact absurd h (by decide)
  · intro h0; subst h0; exact absurd h (by decide)
  · intro h0; subst h0; exact absurd h (by decide)
  · intro h0; subst h0; exact absurd h (by decide)
  · intro h0; subst h0; exact absurd h (by decide)
  · cases hE : isEscC c
    · rfl
    · have hor : (c = '%' ∨ c = '&') ∨ c = '#' := by
        simpa [isEscC] using hE
      rcases hor with (h0 | h0) | h0 <;> subst h0 <;> exact absurd h (by decide)

theorem stepCons_digit {rl : Bool} {c : Char} (t : List Char) (h : c.isDigit = true) :
    stepCons rl c t =
      (processTok ((((c::t).takeWhile isNumC).reverse.dropWhile (fun x => x = ',')).reverse),
       (((c::t).takeWhile isNumC).reverse.takeWhile (fun x => x = ',')).reverse
         ++ (c::t).dropWhile isNumC) := by
  obtain ⟨h1, h2, h3, h4, h5, -⟩ := digit_not_special h
  simp [stepCons, h, h1, h2, h3, h4, h5, spanFst, spanSnd]

theorem esc_not_special {c : Char} (h : isEscC c = true) :
    c ≠ '\\' ∧ c ≠ '^' ∧ c ≠ '_' ∧ c ≠ '[' ∧ c ≠ '(' ∧ c.isDigit = false := by
  have hc : (c = '%' ∨ c = '&') ∨ c = '#' := by simpa [isEscC] using h
  rcases hc with (h0 | h0) | h0 <;> subst h0 <;>
    exact ⟨by decide, by decide, by decide, by decide, by decide, by decide⟩

theorem stepCons_esc {rl : Bool} {c : Char} (t : List Char) (h : isEscC c = true) :
    stepCons rl c t = ((if rl then ['\\', c] else [c]), t) := by
  obtain ⟨h1, h2, h3, h4, h5, h6⟩ := esc_not_special h
  simp [stepCons, h, h1, h2, h3, h4, h5, h6]

theorem stepCons_plain {rl : Bool} {c : Char} (t : List Char)
    (h1 : c ≠ '\\') (h2 : c ≠ '^') (h3 : c ≠ '_') (h4 : c ≠ '[') (h5 : c ≠ '(')
    (h6 : c.isDigit = false) (h7 : isEscC c = false) :
    stepCons rl c t = ([c], t) := by
  simp [stepCons, h1, h2, h3, h4, h5, h6, h7]

/-! ### Numeric-token helpers -/

theorem tok_trail_append (rn : List Char) :
    ((rn.reverse.dropWhile (fun x => x = ',')).reverse)
      ++ ((rn.reverse.takeWhile (fun x => x = ',')).reverse) = rn := by
  rw [← List.reverse_append, List.takeWhile_append_dropWhile, List.reverse_reverse]

theorem trail_all_comma (rn : List Char) :
    ∀ y ∈ (rn.reverse.takeWhile (fun x => x = ',')).reverse, y = ',' := by
  intro y hy
  rw [List.mem_reverse] at hy
  have := List.mem_takeWhile_imp hy
  simpa using this

theorem tok_sub (rn : List Char) :
    ∀ y ∈ (rn.reverse.dropWhile (fun x => x = ',')).reverse, y ∈ rn := by
  intro y hy
  rw [List.mem_reverse] at hy
  have := (List.dropWhile_sublist (fun x => x = ',')).subset hy
  rw [List.mem_reverse] at this
  exact this

theorem tok_ne_nil {rn : List Char} {y : Char} (hy : y ∈ rn) (hc : ¬(y = ',')) :
    (rn.reverse.dropWhile (fun x => x = ',')).reverse ≠ [] := by
  intro h0
  have h1 : rn.reverse.dropWhile (fun x => x = ',') = [] := by
    have := congrArg List.reverse h0
    rwa [List.reverse_reverse] at this
  rw [List.dropWhile_eq_nil_iff] at h1
  have := h1 y (List.mem_reverse.2 hy)
  exact hc (by simpa using this)

/-- The token ends in a non-comma character: its reverse starts with one. -/
theorem tok_rev_head (rn : List Char) :
    headNot (fun x => x = ',') (((rn.reverse.dropWhile (fun x => x = ',')).reverse).reverse) := by
  rw [List.reverse_reverse]
  exact headNot_of_dropWhile rn.reverse

theorem tok_last_decomp {rn : List Char}
    (h : (rn.reverse.dropWhile (fun x => x = ',')).reverse ≠ []) :
    ∃ q d, (rn.reverse.dropWhile (fun x => x = ',')).reverse = q ++ [d] ∧ ¬(d = ',') := by
  rcases hr : rn.reverse.dropWhile (fun x => x = ',') with _ | ⟨d, ds⟩
  · exact absurd (by rw [hr]; rfl) h
  · refine ⟨ds.reverse, d, by simp [hr], ?_⟩
    have := dropWhile_head_false hr
    simpa using this

/-! ### Fuel facts for the scan -/

theorem stepShrink (rl : Bool) (c : Char) (t : List Char) :
    (stepCons rl c t).2.length ≤ t.length := by
  by_cases h1 : c = '\\'
  · subst h1
    rcases t with _ | ⟨d, t2⟩
    · rw [stepCons_bs_nil]
    · rw [stepCons_bs_cons]; simp
  by_cases h2 : c = '^' ∨ c = '_'
  · rcases t with _ | ⟨c2, t2⟩
    · rw [stepCons_script_alone_nil h2]
    · by_cases hlb : c2 = '{'
      · subst hlb
        rcases hb : braceSplit t2 with _ | ⟨b, af⟩
        · rw [stepCons_script_brace_fail h2 hb]
        · rw [stepCons_script_span h2 hb]
          obtain ⟨-, -, hdec⟩ := braceSplit_decomp hb
          subst hdec
          simp [List.length_append]
          omega
      · rw [stepCons_script_alone_cons h2 hlb]
  by_cases h4 : c = '['
  · subst h4
    rcases hc : chemParse t with _ | ⟨⟨co, suf, af⟩⟩
    · rcases ht : tupParse t with _ | ⟨⟨pre, cl, af⟩⟩
      · rw [stepCons_lb_plain hc ht]
      · rw [stepCons_lb_tup hc ht]
        obtain ⟨-, -, -, hdec⟩ := tupParse_decomp ht
        subst hdec
        simp [List.length_append]
        omega
    · rw [stepCons_chem hc]
      obtain ⟨u, a, hdec, -, -, -, -, -⟩ := chemParse_decomp hc
      subst hdec
      simp [List.length_append]
      omega
  by_cases h5 : c = '('
  · subst h5
    rcases ht : tupParse t with _ | ⟨⟨pre, cl, af⟩⟩
    · rw [stepCons_lp_plain ht]
    · rw [stepCons_lp_tup ht]
      obtain ⟨-, -, -, hdec⟩ := tupParse_decomp ht
      subst hdec
      simp [List.length_append]
      omega
  by_cases h6 : c.isDigit
  · rw [stepCons_digit t h6]
    have htt := congrArg List.length (tok_trail_append ((c::t).takeWhile isNumC))
    rw [List.length_append] at htt
    have hsp := congrArg List.length
      (List.takeWhile_append_dropWhile (p := isNumC) (l := c::t))
    rw [List.length_append] at hsp
    have hcm : c ∈ (c::t).takeWhile isNumC := by
      rw [List.takeWhile_cons_of_pos (by simp [isNumC, h6])]
      exact List.mem_cons_self c _
    have hne := tok_ne_nil hcm (by intro h0; subst h0; exact absurd h6 (by decide))
    have hpos : 1 ≤ ((((c::t).takeWhile isNumC).reverse.dropWhile
        (fun x => x = ',')).reverse).length := by
      rcases hq : (((c::t).takeWhile isNumC).reverse.dropWhile (fun x => x = ',')).reverse with
        _ | ⟨q, qs⟩
      · exact absurd hq hne
      · simp
    rw [List.length_append]
    simp only [List.length_cons] at hsp
    omega
  by_cases h7 : isEscC c
  · rw [stepCons_esc t h7]
  · have h2a : c ≠ '^' := fun h0 => h2 (Or.inl h0)
    have h2b : c ≠ '_' := fun h0 => h2 (Or.inr h0)
    rw [stepCons_plain t h1 h2a h2b h4 h5 (by simpa using h6) (by simpa using h7)]

theorem goNorm_congr (rl : Bool) : ∀ (fu1 fu2 : Nat) (l : List Char),
    l.length ≤ fu1 → l.length ≤ fu2 → goNorm rl fu1 l = goNorm rl fu2 l := by
  intro fu1
  induction fu1 with
  | zero =>
      intro fu2 l h1 h2
      have h0 : l = [] := List.length_eq_zero.1 (Nat.le_zero.1 h1)
      subst h0
      cases fu2 <;> rfl
  | succ n ih =>
      intro fu2 l h1 h2
      rcases l with _ | ⟨c, t⟩
      · cases fu2 <;> rfl
      · rcases fu2 with _ | m
        · simp at h2
        · show (stepCons rl c t).1 ++ goNorm rl n (stepCons rl c t).2
            = (stepCons rl c t).1 ++ goNorm rl m (stepCons rl c t).2
          congr 1
          have hlt : t.length ≤ n := by simpa using h1
          have hlm : t.length ≤ m := by simpa using h2
          exact ih m (stepCons rl c t).2 (le_trans (stepShrink rl c t) hlt)
            (le_trans (stepShrink rl c t) hlm)

theorem runNorm_cons (rl : Bool) (c : Char) (t : List Char) :
    runNorm rl (c::t) = (stepCons rl c t).1 ++ runNorm rl (stepCons rl c t).2 := by
  show (stepCons rl c t).1 ++ goNorm rl t.length (stepCons rl c t).2
    = (stepCons rl c t).1 ++ runNorm rl (stepCons rl c t).2
  congr 1
  exact goNorm_congr rl t.length (stepCons rl c t).2.length (stepCons rl c t).2
    (stepShrink rl c t) le_rfl

/-! ### The character-level edit relation of the scan

`ScanRel r y` states that `y` arises from `r` by copying characters, inserting
an escape backslash before a character, or deleting a separator comma that
sits between two digits.  The scan output is related to its input in this
way, and bracket-content matches pull back along the relation. -/

inductive ScanRel : List Char → List Char → Prop where
  | nil : ScanRel [] []
  | copy (c : Char) {r y : List Char} : ScanRel r y → ScanRel (c::r) (c::y)
  | ins (c : Char) {r y : List Char} : ScanRel r y → ScanRel (c::r) ('\\'::c::y)
  | del {a b : Char} {r y : List Char} (ha : a.isDigit) (hb : b.isDigit) :
      ScanRel (b::r) (b::y) → ScanRel (a:: ','::b::r) (a::b::y)

/-- `InsComma p q`: `q` is `p` with extra separator commas inserted between
digits. -/
inductive InsComma : List Char → List Char → Prop where
  | nil : InsComma [] []
  | copy (c : Char) {p q : List Char} : InsComma p q → InsComma (c::p) (c::q)
  | ins {a b : Char} {p q : List Char} (ha : a.isDigit) (hb : b.isDigit) :
      InsComma (b::p) (b::q) → InsComma (a::b::p) (a:: ','::b::q)

theorem ScanRel.copies {r y : List Char} (h : ScanRel r y) :
    ∀ p : List Char, ScanRel (p ++ r) (p ++ y)
  | [] => h
  | c::p => ScanRel.copy c (ScanRel.copies h p)

theorem ScanRel.ofEq : ∀ l : List Char, ScanRel l l
  | [] => ScanRel.nil
  | c::t => ScanRel.copy c (ScanRel.ofEq t)

theorem InsComma.ofEqI : ∀ l : List Char, InsComma l l
  | [] => InsComma.nil
  | c::t => InsComma.copy c (InsComma.ofEqI t)

theorem rel_prefix_pullback {r y : List Char} (hrel : ScanRel r y) :
    ∀ {q af : List Char} {c : Char}, y = q ++ c::af →
      '\\' ∉ q → c ≠ '\\' → c.isDigit = false →
      ∃ q2 af2, r = q2 ++ c::af2 ∧ InsComma q q2 := by
  induction hrel with
  | nil =>
      intro q af c h _ _ _
      exact absurd h (by simp)
  | copy d hsub ih =>
      intro q af c h hq hc hcd
      rcases q with _ | ⟨q0, q1⟩
      · simp only [List.nil_append] at h
        obtain ⟨h1, h2⟩ := List.cons.inj h
        subst h1
        exact ⟨[], _, rfl, InsComma.nil⟩
      · simp only [List.cons_append] at h
        obtain ⟨h1, h2⟩ := List.cons.inj h
        subst h1
        obtain ⟨q2, af2, hr, hic⟩ := ih h2 (fun hm => hq (List.mem_cons_of_mem _ hm)) hc hcd
        exact ⟨d::q2, af2, by rw [List.cons_append, hr], InsComma.copy d hic⟩
  | ins e hsub ih =>
      intro q af c h hq hc hcd
      rcases q with _ | ⟨q0, q1⟩
      · simp only [List.nil_append] at h
        obtain ⟨h1, -⟩ := List.cons.inj h
        exact absurd h1.symm hc
      · simp only [List.cons_append] at h
        obtain ⟨h1, -⟩ := List.cons.inj h
        subst h1
        exact absurd (List.mem_cons_self _ _) hq
  | del ha hb hsub ih =>
      intro q af c h hq hc hcd
      rcases q with _ | ⟨q0, q1⟩
      · simp only [List.nil_append] at h
        obtain ⟨h1, -⟩ := List.cons.inj h
        subst h1
        rw [ha] at hcd
        exact absurd hcd (by simp)
      · simp only [List.cons_append] at h
        obtain ⟨h1, h2⟩ := List.cons.inj h
        subst h1
        rcases q1 with _ | ⟨q10, q11⟩
        · simp only [List.nil_append] at h2
          obtain ⟨h3, -⟩ := List.cons.inj h2
          subst h3
          rw [hb] at hcd
          exact absurd hcd (by simp)
        · simp only [List.cons_append] at h2
          obtain ⟨h3, h4⟩ := List.cons.inj h2
          subst h3
          obtain ⟨q2, af2, hr, hic⟩ :=
            ih (show _ = (_::q11) ++ c::af from by rw [List.cons_append, h4])
              (fun hm => hq (List.mem_cons_of_mem _ hm)) hc hcd
          rcases q2 with _ | ⟨q20, q21⟩
          · simp only [List.nil_append] at hr
            obtain ⟨h5, -⟩ := List.cons.inj hr
            subst h5
            rw [hb] at hcd
            exact absurd hcd (by simp)
          · simp only [List.cons_append] at hr
            obtain ⟨h5, h6⟩ := List.cons.inj hr
            subst h5
            refine ⟨_, af2, ?_, InsComma.ins ha hb hic⟩
            rw [h6]
            simp [List.cons_append]

/-! ### Transport of `partsOK` along `InsComma` -/

theorem insComma_head {p q : List Char} (h : InsComma p q) : p.head? = q.head? := by
  cases h with
  | nil => rfl
  | copy c h2 => rfl
  | ins ha hb h2 => rfl

theorem insComma_nil_right {p : List Char} (h : InsComma p []) : p = [] := by
  cases h
  rfl

theorem insComma_nil_left {q : List Char} (h : InsComma [] q) : q = [] := by
  cases h
  rfl

theorem insComma_mem_image {p q : List Char} (h : InsComma p q) :
    ∀ y ∈ q, y ∈ p ∨ y = ',' := by
  induction h with
  | nil => intro y hy; exact absurd hy (by simp)
  | copy c h2 ih =>
      intro y hy
      rcases List.mem_cons.1 hy with h0 | h0
      · exact Or.inl (h0 ▸ List.mem_cons_self _ _)
      · rcases ih y h0 with h1 | h1
        · exact Or.inl (List.mem_cons_of_mem _ h1)
        · exact Or.inr h1
  | ins ha hb h2 ih =>
      intro y hy
      rcases List.mem_cons.1 hy with h0 | h0
      · exact Or.inl (h0 ▸ List.mem_cons_self _ _)
      rcases List.mem_cons.1 h0 with h1 | h1
      · exact Or.inr h1
      · rcases ih y h1 with h3 | h3
        · exact Or.inl (List.mem_cons_of_mem _ h3)
        · exact Or.inr h3

theorem insComma_mem_orig {p q : List Char} (h : InsComma p q) :
    ∀ y ∈ p, y ∈ q := by
  induction h with
  | nil => intro y hy; exact absurd hy (by simp)
  | copy c h2 ih =>
      intro y hy
      rcases List.mem_cons.1 hy with h0 | h0
      · exact h0 ▸ List.mem_cons_self _ _
      · exact List.mem_cons_of_mem _ (ih y h0)
  | ins ha hb h2 ih =>
      intro y hy
      rcases List.mem_cons.1 hy with h0 | h0
      · exact h0 ▸ List.mem_cons_self _ _
      · exact List.mem_cons_of_mem _ (List.mem_cons_of_mem _ (ih y h0))

theorem insComma_getLast {p q : List Char} (h : InsComma p q) :
    p.getLast? = q.getLast? := by
  induction h with
  | nil => rfl
  | copy c h2 ih =>
      rename_i p1 q1
      rcases p1 with _ | ⟨x, p2⟩
      · have h0 := insComma_nil_left h2
        subst h0
        rfl
      · rcases q1 with _ | ⟨z, q2⟩
        · exact absurd (insComma_nil_right h2) (by simp)
        · rw [List.getLast?_cons_cons, List.getLast?_cons_cons]
          exact ih
  | ins ha hb h2 ih =>
      rw [List.getLast?_cons_cons, List.getLast?_cons_cons, List.getLast?_cons_cons]
      exact ih

theorem hasCC_cons_of {c : Char} {t : List Char} (h : hasCC t = true) :
    hasCC (c::t) = true := by
  rcases t with _ | ⟨e, t2⟩
  · exact absurd h (by simp [hasCC])
  · rw [hasCC]
    rw [h]
    simp

theorem insComma_hasCC {p q : List Char} (h : InsComma p q)
    (hq : hasCC q = true) : hasCC p = true := by
  induction h with
  | nil => exact absurd hq (by simp [hasCC])
  | copy c h2 ih =>
      rename_i p1 q1
      rcases q1 with _ | ⟨d, q2⟩
      · exact absurd hq (by simp [hasCC])
      · rw [hasCC] at hq
        rcases p1 with _ | ⟨e, p2⟩
        · exact absurd (insComma_nil_left h2) (by simp)
        have hhead : e = d := by
          have := insComma_head h2
          simpa using this
        subst hhead
        rw [Bool.or_eq_true] at hq
        rcases hq with h0 | h0
        · rw [hasCC]
          rw [h0]
          simp
        · have := ih h0
          exact hasCC_cons_of this
  | ins ha hb h2 ih =>
      rename_i a b p1 q1
      rw [hasCC] at hq
      rw [Bool.or_eq_true] at hq
      rcases hq with h0 | h0
      · rw [Bool.and_eq_true] at h0
        have : a = ',' := by simpa using h0.1
        subst this
        exact absurd ha (by decide)
      · rw [hasCC] at h0
        rw [Bool.or_eq_true] at h0
        rcases h0 with h1 | h1
        · rw [Bool.and_eq_true] at h1
          have : b = ',' := by simpa using h1.2
          subst this
          exact absurd hb (by decide)
        · have := ih h1
          exact hasCC_cons_of this

theorem hasCC_of_no_comma {l : List Char} (h : ',' ∉ l) : hasCC l = false := by
  induction l with
  | nil => rfl
  | cons a t ih =>
      rcases t with _ | ⟨b, t2⟩
      · rfl
      · rw [hasCC]
        have ha : ¬(a = ',') := fun h0 => h (h0 ▸ List.mem_cons_self a (b::t2))
        have ht : ',' ∉ b::t2 := fun h0 => h (List.mem_cons_of_mem a h0)
        simp [ha, ih ht]

theorem partsOK_transport {p q : List Char} (h : InsComma p q) (hp : partsOK p = true) :
    partsOK q = true := by
  rw [partsOK] at hp ⊢
  simp only [Bool.and_eq_true, bne_iff_ne, Ne, Bool.not_eq_true',
    List.elem_eq_mem, decide_eq_true_eq] at hp ⊢
  obtain ⟨⟨⟨hh, hl⟩, hcc⟩, hcm⟩ := hp
  refine ⟨⟨⟨?_, ?_⟩, ?_⟩, ?_⟩
  · rw [← insComma_head h]; exact hh
  · rw [← insComma_getLast h]; exact hl
  · cases hq : hasCC q
    · rfl
    · rw [insComma_hasCC h hq] at hcc
      exact absurd hcc (by simp)
  · exact insComma_mem_orig h ',' hcm

/-! ### Character-class helpers -/

theorem upper_isAlphanum {u : Char} (h : u.isUpper = true) : u.isAlphanum = true := by
  simp [Char.isAlphanum, Char.isAlpha, h]

theorem upper_ne_comma {u : Char} (h : u.isUpper = true) : ¬(u = ',') := by
  intro h0; subst h0; exact absurd h (by decide)

theorem upper_ne_bs {u : Char} (h : u.isUpper = true) : ¬(u = '\\') := by
  intro h0; subst h0; exact absurd h (by decide)

theorem alnum_ne_bs {y : Char} (h : y.isAlphanum = true) : ¬(y = '\\') := by
  intro h0; subst h0; exact absurd h (by decide)

theorem alnum_ne_comma {y : Char} (h : y.isAlphanum = true) : ¬(y = ',') := by
  intro h0; subst h0; exact absurd h (by decide)

theorem alnum_tupCC {y : Char} (h : y.isAlphanum = true) : isTupCC y = true := by
  simp [isTupCC, isTupC, h]

theorem tupCC_ne_bs {y : Char} (h : isTupCC y = true) : ¬(y = '\\') := by
  intro h0; subst h0; exact absurd h (by decide)

theorem digit_ne_comma {c : Char} (h : c.isDigit = true) : ¬(c = ',') := by
  intro h0; subst h0; exact absurd h (by decide)

/-! ### Pulling bracket matches back along the edit relation -/

theorem chem_pullback {r y : List Char} (hrel : ScanRel r y)
    {co suf af : List Char} (h : chemParse y = some (co, suf, af)) :
    chemParse r ≠ none ∨ tupParse r ≠ none := by
  obtain ⟨u, a, hy, hco, hu, ha, hsu, haf⟩ := chemParse_decomp h
  have hy2 : y = (u::a) ++ ']'::(suf ++ af) := by simpa using hy
  have hnb : '\\' ∉ u::a := by
    intro hm
    rcases List.mem_cons.1 hm with h0 | h0
    · rw [← h0] at hu
      exact absurd hu (by decide)
    · exact absurd h0 (fun h1 => alnum_ne_bs (ha _ h1) rfl)
  obtain ⟨q2, af2, hr, hic⟩ := rel_prefix_pullback hrel hy2 hnb (by decide) (by decide)
  have hq2head : q2.head? = some u := by rw [← insComma_head hic]; rfl
  rcases q2 with _ | ⟨u2, a2⟩
  · simp at hq2head
  have hu2 : u2 = u := by simpa using hq2head
  subst hu2
  by_cases hcomma : ',' ∈ u2::a2
  · right
    intro hnone
    have hpre : ∀ y2 ∈ u2::a2, isTupCC y2 = true := by
      intro y2 hy2m
      rcases insComma_mem_image hic y2 hy2m with h0 | h0
      · rcases List.mem_cons.1 h0 with h1 | h1
        · subst h1; exact alnum_tupCC (upper_isAlphanum hu)
        · exact alnum_tupCC (ha _ h1)
      · subst h0; decide
    have hparts : partsOK (u2::a2) = true := by
      rw [partsOK]
      simp only [Bool.and_eq_true, bne_iff_ne, Ne, Bool.not_eq_true',
        List.elem_eq_mem, decide_eq_true_eq]
      refine ⟨⟨⟨?_, ?_⟩, ?_⟩, hcomma⟩
      · intro h0
        have : u2 = ',' := by simpa using h0
        exact upper_ne_comma hu this
      · rw [← insComma_getLast hic]
        intro h0
        have hm := List.mem_of_getLast?_eq_some h0
        rcases List.mem_cons.1 hm with h1 | h1
        · exact upper_ne_comma hu h1.symm
        · exact alnum_ne_comma (ha _ h1) rfl
      · cases hq : hasCC (u2::a2)
        · rfl
        · have h2 := insComma_hasCC hic hq
          have h3 : ',' ∉ u2::a := by
            intro hm
            rcases List.mem_cons.1 hm with h1 | h1
            · exact upper_ne_comma hu h1.symm
            · exact alnum_ne_comma (ha _ h1) rfl
          rw [hasCC_of_no_comma h3] at h2
          exact absurd h2 (by simp)
    have hb : tupParse ((u2::a2) ++ ']' :: af2) = some (u2::a2, ']', af2) :=
      tupParse_build hpre (Or.inr rfl) hparts
    rw [hr] at hnone
    rw [hb] at hnone
    exact absurd hnone (by simp)
  · left
    intro hnone
    have halnum : ∀ y2 ∈ a2, y2.isAlphanum = true := by
      intro y2 hy2m
      rcases insComma_mem_image hic y2 (List.mem_cons_of_mem u2 hy2m) with h0 | h0
      · rcases List.mem_cons.1 h0 with h1 | h1
        · subst h1; exact upper_isAlphanum hu
        · exact ha _ h1
      · subst h0
        exact absurd (List.mem_cons_of_mem u2 hy2m) hcomma
    have hb : chemParse (u2 :: (a2 ++ ']' :: (af2.takeWhile isChargeC
        ++ af2.dropWhile isChargeC)))
        = some (u2::a2, af2.takeWhile isChargeC, af2.dropWhile isChargeC) :=
      chemParse_build hu halnum
        (fun y2 hy2m => List.mem_takeWhile_imp hy2m) (headNot_of_dropWhile af2)
    rw [List.takeWhile_append_dropWhile] at hb
    rw [hr, List.cons_append] at hnone
    rw [hb] at hnone
    exact absurd hnone (by simp)

theorem tup_pullback {r y : List Char} (hrel : ScanRel r y)
    {pre af : List Char} {cl : Char} (h : tupParse y = some (pre, cl, af)) :
    tupParse r ≠ none := by
  obtain ⟨hpre, hcl, hparts, hy⟩ := tupParse_decomp h
  have hnb : '\\' ∉ pre := fun hm => tupCC_ne_bs (hpre _ hm) rfl
  have hclb : cl ≠ '\\' := by rcases hcl with h0 | h0 <;> subst h0 <;> decide
  have hcld : cl.isDigit = false := by rcases hcl with h0 | h0 <;> subst h0 <;> decide
  obtain ⟨q2, af2, hr, hic⟩ := rel_prefix_pullback hrel hy hnb hclb hcld
  intro hnone
  have hq2 : ∀ y2 ∈ q2, isTupCC y2 = true := by
    intro y2 hy2m
    rcases insComma_mem_image hic y2 hy2m with h0 | h0
    · exact hpre _ h0
    · subst h0; decide
  have hb : tupParse (q2 ++ cl :: af2) = some (q2, cl, af2) :=
    tupParse_build hq2 hcl (partsOK_transport hic hparts)
  rw [hr] at hnone
  rw [hb] at hnone
  exact absurd hnone (by simp)

/-! ### The scan output is related to its input -/

theorem groups_scanrel : ∀ (n : Nat) (g : List Char), g.length ≤ n → groupsExact g = true →
    ∀ {z w : List Char} (x : Char), x.isDigit = true → ScanRel z w →
      ScanRel (x::(g ++ z)) (x::(g.filter (fun c => !(c = ',')) ++ w)) := by
  intro n
  induction n with
  | zero =>
      intro g hlen hg z w x hx hzw
      have h0 : g = [] := List.length_eq_zero.1 (Nat.le_zero.1 hlen)
      subst h0
      exact absurd hg (by simp [groupsExact])
  | succ m ih =>
      intro g hlen hg z w x hx hzw
      rcases g with _ | ⟨g0, g1⟩
      · exact absurd hg (by simp [groupsExact])
      rcases g1 with _ | ⟨a, g2⟩
      · exact absurd hg (by simp [groupsExact])
      rcases g2 with _ | ⟨b, g3⟩
      · exact absurd hg (by simp [groupsExact])
      rcases g3 with _ | ⟨c, r⟩
      · exact absurd hg (by simp [groupsExact])
      rw [groupsExact] at hg
      simp only [Bool.and_eq_true, decide_eq_true_eq, Bool.or_eq_true,
        List.isEmpty_iff] at hg
      obtain ⟨⟨⟨⟨hg0, hadig⟩, hbdig⟩, hcdig⟩, hrest⟩ := hg
      subst hg0
      have hfil : (','::a::b::c::r).filter (fun ch => !(ch = ','))
          = a::b::c::(r.filter (fun ch => !(ch = ','))) := by
        simp [List.filter_cons, digit_ne_comma hadig, digit_ne_comma hbdig,
          digit_ne_comma hcdig]
      rw [hfil]
      rcases hrest with hr0 | hgr
      · subst hr0
        simp only [List.nil_append, List.cons_append, List.filter_nil]
        exact ScanRel.del hx hadig
          (ScanRel.copy a (ScanRel.copy b (ScanRel.copy c hzw)))
      · have hlr : r.length ≤ m := by
          simp only [List.length_cons] at hlen
          omega
        have hsub := ih r hlr hgr c hcdig hzw
        simp only [List.cons_append]
        exact ScanRel.del hx hadig
          (ScanRel.copy a (ScanRel.copy b hsub))

theorem strict_scanrel {tok z w : List Char} (hs : strictShape tok = true)
    (hzw : ScanRel z w) :
    ScanRel (tok ++ z) ((tok.filter (fun c => !(c = ','))) ++ w) := by
  rw [strictShape, spanFst, spanSnd] at hs
  simp only [Bool.and_eq_true, Bool.not_eq_true'] at hs
  obtain ⟨⟨hd1, -⟩, hg⟩ := hs
  have hdne : tok.takeWhile Char.isDigit ≠ [] := by
    intro h0
    rw [h0] at hd1
    simp at hd1
  have htok : tok.takeWhile Char.isDigit ++ tok.dropWhile Char.isDigit = tok :=
    List.takeWhile_append_dropWhile (p := Char.isDigit) (l := tok)
  have hddig : ∀ y ∈ tok.takeWhile Char.isDigit, y.isDigit = true :=
    fun y hy => List.mem_takeWhile_imp hy
  have hfd : (tok.takeWhile Char.isDigit).filter (fun c => !(c = ','))
      = tok.takeWhile Char.isDigit :=
    List.filter_eq_self.2 (fun a ha => by simp [digit_ne_comma (hddig a ha)])
  have hftok : tok.filter (fun c => !(c = ','))
      = tok.takeWhile Char.isDigit
        ++ (tok.dropWhile Char.isDigit).filter (fun c => !(c = ',')) := by
    rw [← htok, List.filter_append, hfd]
    rw [htok]
  have hd2 : (tok.takeWhile Char.isDigit).dropLast
      ++ [(tok.takeWhile Char.isDigit).getLast hdne] = tok.takeWhile Char.isDigit :=
    List.dropLast_append_getLast hdne
  have hdl : ((tok.takeWhile Char.isDigit).getLast hdne).isDigit = true :=
    hddig _ (List.getLast_mem hdne)
  have hmain := groups_scanrel (tok.dropWhile Char.isDigit).length
    (tok.dropWhile Char.isDigit) le_rfl hg
    ((tok.takeWhile Char.isDigit).getLast hdne) hdl hzw (z := z) (w := w)
  have hcop := ScanRel.copies hmain ((tok.takeWhile Char.isDigit).dropLast)
  have e1 : (tok.takeWhile Char.isDigit).dropLast
      ++ ((tok.takeWhile Char.isDigit).getLast hdne :: (tok.dropWhile Char.isDigit ++ z))
      = tok ++ z := by
    rw [← List.singleton_append, ← List.append_assoc, hd2, ← List.append_assoc, htok]
  have e2 : (tok.takeWhile Char.isDigit).dropLast
      ++ ((tok.takeWhile Char.isDigit).getLast hdne
        :: ((tok.dropWhile Char.isDigit).filter (fun c => !(c = ',')) ++ w))
      = tok.filter (fun c => !(c = ',')) ++ w := by
    rw [← List.singleton_append, ← List.append_assoc, hd2, ← List.append_assoc, ← hftok]
  rw [e1, e2] at hcop
  exact hcop

theorem runNorm_scanrel (rl : Bool) : ∀ (n : Nat) (l : List Char), l.length ≤ n →
    ScanRel l (runNorm rl l) := by
  intro n
  induction n with
  | zero =>
      intro l hlen
      have h0 : l = [] := List.length_eq_zero.1 (Nat.le_zero.1 hlen)
      subst h0
      exact ScanRel.nil
  | succ m ih =>
      intro l hlen
      rcases l with _ | ⟨c, t⟩
      · exact ScanRel.nil
      rw [runNorm_cons]
      have hlt : t.length ≤ m := by simpa using hlen
      have hstep : (stepCons rl c t).2.length ≤ m := le_trans (stepShrink rl c t) hlt
      have ihs := ih _ hstep
      by_cases h1 : c = '\\'
      · subst h1
        rcases t with _ | ⟨d, t2⟩
        · rw [stepCons_bs_nil] at ihs ⊢
          exact ScanRel.copy '\\' ihs
        · rw [stepCons_bs_cons] at ihs ⊢
          exact ScanRel.copy '\\' (ScanRel.copy d ihs)
      by_cases h2 : c = '^' ∨ c = '_'
      · rcases t with _ | ⟨c2, t2⟩
        · rw [stepCons_script_alone_nil h2] at ihs ⊢
          rcases rl with _ | _
          · simpa using ScanRel.copy c ihs
          · simpa using ScanRel.ins c ihs
        · by_cases hlb : c2 = '{'
          · subst hlb
            rcases hb : braceSplit t2 with _ | ⟨b, af⟩
            · rw [stepCons_script_brace_fail h2 hb] at ihs ⊢
              rcases rl with _ | _
              · simpa using ScanRel.copy c ihs
              · simpa using ScanRel.ins c ihs
            · rw [stepCons_script_span h2 hb] at ihs ⊢
              obtain ⟨-, -, hdec⟩ := braceSplit_decomp hb
              have hl2 : c:: '{'::t2 = (c:: '{'::(b ++ ['}'])) ++ af := by
                rw [hdec]
                simp [List.append_assoc]
              rw [hl2]
              exact ScanRel.copies ihs (c:: '{'::(b ++ ['}']))
          · rw [stepCons_script_alone_cons h2 hlb] at ihs ⊢
            rcases rl with _ | _
            · simpa using ScanRel.copy c ihs
            · simpa using ScanRel.ins c ihs
      by_cases h4 : c = '['
      · subst h4
        rcases hc : chemParse t with _ | ⟨⟨co, suf, af⟩⟩
        · rcases ht : tupParse t with _ | ⟨⟨pre, cl, af⟩⟩
          · rw [stepCons_lb_plain hc ht] at ihs ⊢
            exact ScanRel.copy '[' ihs
          · rw [stepCons_lb_tup hc ht] at ihs ⊢
            obtain ⟨-, -, -, hdec⟩ := tupParse_decomp ht
            have hl2 : '['::t = ('['::(pre ++ [cl])) ++ af := by
              rw [hdec]
              simp [List.append_assoc]
            rw [hl2]
            exact ScanRel.copies ihs ('['::(pre ++ [cl]))
        · rw [stepCons_chem hc] at ihs ⊢
          obtain ⟨u, a, hdec, hco, -, -, -, -⟩ := chemParse_decomp hc
          have hl2 : '['::t = ('['::(co ++ ']'::suf)) ++ af := by
            rw [hdec, hco]
            simp [List.append_assoc]
          rw [hl2]
          exact ScanRel.copies ihs ('['::(co ++ ']'::suf))
      by_cases h5 : c = '('
      · subst h5
        rcases ht : tupParse t with _ | ⟨⟨pre, cl, af⟩⟩
        · rw [stepCons_lp_plain ht] at ihs ⊢
          exact ScanRel.copy '(' ihs
        · rw [stepCons_lp_tup ht] at ihs ⊢
          obtain ⟨-, -, -, hdec⟩ := tupParse_decomp ht
          have hl2 : '('::t = ('('::(pre ++ [cl])) ++ af := by
            rw [hdec]
            simp [List.append_assoc]
          rw [hl2]
          exact ScanRel.copies ihs ('('::(pre ++ [cl]))
      by_cases h6 : c.isDigit
      · rw [stepCons_digit t h6] at ihs ⊢
        have htt := tok_trail_append ((c::t).takeWhile isNumC)
        have hl2 : c::t
            = ((((c::t).takeWhile isNumC).reverse.dropWhile (fun x => x = ',')).reverse)
              ++ (((((c::t).takeWhile isNumC).reverse.takeWhile
                  (fun x => x = ',')).reverse) ++ (c::t).dropWhile isNumC) := by
          rw [← List.append_assoc, htt, List.takeWhile_append_dropWhile]
        rw [processTok]
        by_cases hs : strictShape
            ((((c::t).takeWhile isNumC).reverse.dropWhile (fun x => x = ',')).reverse) = true
        · rw [if_pos hs]
          have hgoal := strict_scanrel hs ihs
          rw [← hl2] at hgoal
          exact hgoal
        · rw [if_neg hs]
          have hgoal := ScanRel.copies ihs
            ((((c::t).takeWhile isNumC).reverse.dropWhile (fun x => x = ',')).reverse)
          rw [← hl2] at hgoal
          exact hgoal
      by_cases h7 : isEscC c
      · rw [stepCons_esc t h7] at ihs ⊢
        rcases rl with _ | _
        · simpa using ScanRel.copy c ihs
        · simpa using ScanRel.ins c ihs
      · have h2a : c ≠ '^' := fun h0 => h2 (Or.inl h0)
        have h2b : c ≠ '_' := fun h0 => h2 (Or.inr h0)
        rw [stepCons_plain t h1 h2a h2b h4 h5 (by simpa using h6) (by simpa using h7)]
          at ihs ⊢
        exact ScanRel.copy c ihs

/-! ### Facts transported along the relation -/

theorem scanrel_mem {r y : List Char} (h : ScanRel r y) :
    ∀ x ∈ y, x ∈ r ∨ x = '\\' := by
  induction h with
  | nil => intro x hx; exact absurd hx (by simp)
  | copy c h2 ih =>
      intro x hx
      rcases List.mem_cons.1 hx with h0 | h0
      · exact Or.inl (h0 ▸ List.mem_cons_self _ _)
      · rcases ih x h0 with h1 | h1
        · exact Or.inl (List.mem_cons_of_mem _ h1)
        · exact Or.inr h1
  | ins c h2 ih =>
      intro x hx
      rcases List.mem_cons.1 hx with h0 | h0
      · exact Or.inr h0
      rcases List.mem_cons.1 h0 with h1 | h1
      · exact Or.inl (h1 ▸ List.mem_cons_self _ _)
      · rcases ih x h1 with h3 | h3
        · exact Or.inl (List.mem_cons_of_mem _ h3)
        · exact Or.inr h3
  | del ha hb h2 ih =>
      intro x hx
      rcases List.mem_cons.1 hx with h0 | h0
      · exact Or.inl (h0 ▸ List.mem_cons_self _ _)
      · rcases ih x h0 with h1 | h1
        · rcases List.mem_cons.1 h1 with h3 | h3
          · exact Or.inl (h3 ▸ (by simp))
          · exact Or.inl (by simp [h3])
        · exact Or.inr h1

theorem scanrel_head {y : List Char} {c : Char} {t : List Char}
    (h : ScanRel (c::t) y) :
    (∃ ys, y = c::ys) ∨ (∃ ys, y = '\\'::c::ys) := by
  cases h with
  | copy _ h2 => exact Or.inl ⟨_, rfl⟩
  | ins _ h2 => exact Or.inr ⟨_, rfl⟩
  | del ha hb h2 => exact Or.inl ⟨_, rfl⟩

theorem runNorm_mem {rl : Bool} {l : List Char} :
    ∀ x ∈ runNorm rl l, x ∈ l ∨ x = '\\' :=
  scanrel_mem (runNorm_scanrel rl l.length l le_rfl)

theorem runNorm_headNot {p : Char → Bool} (hbs : p '\\' = false) (rl : Bool)
    {l : List Char} (h : headNot p l) : headNot p (runNorm rl l) := by
  rcases l with _ | ⟨c, t⟩
  · exact trivial
  · have hrel := runNorm_scanrel rl (c::t).length (c::t) le_rfl
    rcases scanrel_head hrel with ⟨ys, hy⟩ | ⟨ys, hy⟩
    · rw [hy]; exact h
    · rw [hy]; exact hbs

/-- A plain character (ordinary text) is copied and the scan continues. -/
theorem runNorm_plain_cons {rl : Bool} {c : Char} (t : List Char)
    (h1 : c ≠ '\\') (h2 : c ≠ '^') (h3 : c ≠ '_') (h4 : c ≠ '[') (h5 : c ≠ '(')
    (h6 : c.isDigit = false) (h7 : isEscC c = false) :
    runNorm rl (c::t) = c :: runNorm rl t := by
  rw [runNorm_cons, stepCons_plain t h1 h2 h3 h4 h5 h6 h7]
  rfl

theorem runNorm_commas (rl : Bool) : ∀ (tr : List Char), (∀ y ∈ tr, y = ',') →
    ∀ l, runNorm rl (tr ++ l) = tr ++ runNorm rl l
  | [] => by intro h l; simp
  | c::tr2 => by
      intro h l
      have hc : c = ',' := h c (List.mem_cons_self _ _)
      subst hc
      rw [List.cons_append,
        runNorm_plain_cons (tr2 ++ l) (by decide) (by decide) (by decide)
          (by decide) (by decide) (by decide) (by decide),
        runNorm_commas rl tr2 (fun y hy => h y (List.mem_cons_of_mem _ hy)) l]
      rfl

theorem braceSplit_eq_none {t2 : List Char}
    (h : t2.takeWhile (fun c => !(c = '}')) = []
      ∨ t2.dropWhile (fun c => !(c = '}')) = []) :
    braceSplit t2 = none := by
  rw [braceSplit]
  rcases h with h | h
  · split
    · rename_i b bs z zs heq1 heq2
      rw [spanFst] at heq1
      rw [h] at heq1
      exact absurd heq1 (by simp)
    · rfl
  · split
    · rename_i b bs z zs heq1 heq2
      rw [spanSnd] at heq2
      rw [h] at heq2
      exact absurd heq2 (by simp)
    · rfl

theorem braceSplit_none_inv {t2 : List Char} (h : braceSplit t2 = none) :
    t2.takeWhile (fun c => !(c = '}')) = []
      ∨ t2.dropWhile (fun c => !(c = '}')) = [] := by
  by_contra hcon
  rw [not_or] at hcon
  obtain ⟨ha, hb⟩ := hcon
  rcases h1 : t2.takeWhile (fun c => !(c = '}')) with _ | ⟨b, bs⟩
  · exact ha h1
  rcases h2 : t2.dropWhile (fun c => !(c = '}')) with _ | ⟨z, zs⟩
  · exact hb h2
  rw [braceSplit, spanFst, spanSnd, h1, h2] at h
  exact absurd h (by simp)

theorem braceSplit_none_run (rl : Bool) {t2 : List Char} (h : braceSplit t2 = none) :
    braceSplit (runNorm rl t2) = none := by
  rcases braceSplit_none_inv h with h | h
  · rcases t2 with _ | ⟨c2, t3⟩
    · exact braceSplit_eq_none (Or.inl (by simp [runNorm, goNorm]))
    · have hc2 : c2 = '}' := by
        by_contra h0
        rw [List.takeWhile_cons_of_pos (by simp [h0])] at h
        exact absurd h (by simp)
      subst hc2
      rw [runNorm_plain_cons t3 (by decide) (by decide) (by decide) (by decide)
        (by decide) (by decide) (by decide)]
      exact braceSplit_eq_none (Or.inl (by simp))
  · have hmem : '}' ∉ t2 := by
      intro hm
      rw [List.dropWhile_eq_nil_iff] at h
      have h3 := h _ hm
      simp at h3
    have hmem2 : '}' ∉ runNorm rl t2 := by
      intro hm
      rcases runNorm_mem _ hm with h0 | h0
      · exact hmem h0
      · exact absurd h0 (by decide)
    refine braceSplit_eq_none (Or.inr (List.dropWhile_eq_nil_iff.2 ?_))
    intro x hx
    simp only [Bool.not_eq_true', decide_eq_false_iff_not]
    intro h0
    exact absurd (h0 ▸ hx) hmem2

theorem runNorm_nil (rl : Bool) : runNorm rl [] = [] := rfl

theorem headNot_dropWhile_self {p : Char → Bool} {l : List Char} (h : headNot p l) :
    l.dropWhile p = l := by
  rcases l with _ | ⟨c, t⟩
  · rfl
  · exact List.dropWhile_cons_of_neg (by simp only [headNot] at h; simp [h])

theorem headNot_takeWhile_nil {p : Char → Bool} {l : List Char} (h : headNot p l) :
    l.takeWhile p = [] := by
  rcases l with _ | ⟨c, t⟩
  · rfl
  · exact List.takeWhile_cons_of_neg (by simp only [headNot] at h; simp [h])

theorem strictShape_all_digits {q : List Char} (h : ∀ y ∈ q, y.isDigit = true) :
    strictShape q = false := by
  rw [strictShape, spanFst, spanSnd]
  have hdw : q.dropWhile Char.isDigit = [] := List.dropWhile_eq_nil_iff.2 h
  rw [hdw]
  simp [groupsExact]

/-- The scan step on a normalized numeric token followed by its trailing
commas and a non-numeric remainder: the token is re-read whole and left
untouched. -/
theorem stepCons_numeric2 {rl : Bool} {c : Char} {q2 tr y : List Char}
    (hc : c.isDigit = true)
    (hq : ∀ ch ∈ c::q2, isNumC ch = true)
    (hqlast : headNot (fun x => x = ',') ((c::q2).reverse))
    (htr : ∀ ch ∈ tr, ch = ',')
    (hy : headNot isNumC y)
    (hns : strictShape (c::q2) = false) :
    stepCons rl c (q2 ++ (tr ++ y)) = (c::q2, tr ++ y) := by
  have htrn : ∀ ch ∈ tr, isNumC ch = true := by
    intro ch hm
    rw [htr ch hm]
    decide
  have hrn : (c::(q2 ++ (tr ++ y))).takeWhile isNumC = (c::q2) ++ tr := by
    have h0 : c::(q2 ++ (tr ++ y)) = ((c::q2) ++ tr) ++ y := by simp
    rw [h0]
    refine takeWhile_append_stop ?_ hy
    intro ch hm
    rcases List.mem_append.1 hm with h1 | h1
    · exact hq ch h1
    · exact htrn ch h1
  have hrest : (c::(q2 ++ (tr ++ y))).dropWhile isNumC = y := by
    have h0 : c::(q2 ++ (tr ++ y)) = ((c::q2) ++ tr) ++ y := by simp
    rw [h0]
    refine dropWhile_append_stop ?_ hy
    intro ch hm
    rcases List.mem_append.1 hm with h1 | h1
    · exact hq ch h1
    · exact htrn ch h1
  have hrev : ((c::q2) ++ tr).reverse = tr.reverse ++ (c::q2).reverse := by
    rw [List.reverse_append]
  have htok2 : (((c::q2) ++ tr).reverse.dropWhile (fun x => x = ',')).reverse = c::q2 := by
    rw [hrev, List.dropWhile_append_of_pos (by
      intro a ha
      rw [List.mem_reverse] at ha
      simp [htr a ha]), headNot_dropWhile_self hqlast, List.reverse_reverse]
  have htr2 : (((c::q2) ++ tr).reverse.takeWhile (fun x => x = ',')).reverse = tr := by
    rw [hrev, List.takeWhile_append_of_pos (by
      intro a ha
      rw [List.mem_reverse] at ha
      simp [htr a ha]), headNot_takeWhile_nil hqlast, List.append_nil,
      List.reverse_reverse]
  rw [stepCons_digit (q2 ++ (tr ++ y)) hc, hrn, hrest, htok2, htr2, processTok,
    if_neg (by simp [hns])]

/-! ### Idempotence -/

theorem runNorm_idem_aux (rl : Bool) : ∀ (n : Nat) (l : List Char), l.length ≤ n →
    runNorm rl (runNorm rl l) = runNorm rl l := by
  intro n
  induction n with
  | zero =>
      intro l hlen
      have h0 : l = [] := List.length_eq_zero.1 (Nat.le_zero.1 hlen)
      subst h0
      rfl
  | succ m ih =>
      intro l hlen
      rcases l with _ | ⟨c, t⟩
      · rfl
      have hlt : t.length ≤ m := by simpa using hlen
      have hrest : (stepCons rl c t).2.length ≤ m := le_trans (stepShrink rl c t) hlt
      have ihx := ih _ hrest
      rw [runNorm_cons]
      by_cases h1 : c = '\\'
      · subst h1
        rcases t with _ | ⟨d, t2⟩
        · rw [stepCons_bs_nil] at ihx ⊢
          simp only [runNorm_nil, List.append_nil] at ihx ⊢
          rw [runNorm_cons, stepCons_bs_nil]
          simp only [runNorm_nil, List.append_nil]
        · rw [stepCons_bs_cons] at ihx ⊢
          simp only [List.cons_append, List.nil_append] at ihx ⊢
          rw [runNorm_cons, stepCons_bs_cons]
          simp only [List.cons_append, List.nil_append, ihx]
      by_cases h2 : c = '^' ∨ c = '_'
      · rcases t with _ | ⟨c2, t2⟩
        · rw [stepCons_script_alone_nil h2] at ihx ⊢
          simp only [runNorm_nil, List.append_nil] at ihx ⊢
          rcases rl with _ | _
          · simp only [Bool.false_eq_true, if_false] at ihx ⊢
            rw [runNorm_cons, stepCons_script_alone_nil h2]
            simp [runNorm_nil]
          · simp only [if_true] at ihx ⊢
            rw [runNorm_cons, stepCons_bs_cons]
            simp only [runNorm_nil, List.append_nil]
        · by_cases hlb : c2 = '{'
          · subst hlb
            rcases hb : braceSplit t2 with _ | ⟨b, af⟩
            · rw [stepCons_script_brace_fail h2 hb] at ihx ⊢
              have hbr : runNorm rl ('{'::t2) = '{'::runNorm rl t2 :=
                runNorm_plain_cons t2 (by decide) (by decide) (by decide) (by decide)
                  (by decide) (by decide) (by decide)
              rcases rl with _ | _
              · simp only [Bool.false_eq_true, if_false, List.cons_append,
                  List.nil_append] at ihx ⊢
                rw [hbr]
                rw [runNorm_cons, stepCons_script_brace_fail h2
                  (braceSplit_none_run false hb)]
                simp only [Bool.false_eq_true, if_false, List.cons_append,
                  List.nil_append]
                rw [← hbr, ihx]
              · simp only [if_true, List.cons_append, List.nil_append] at ihx ⊢
                rw [runNorm_cons, stepCons_bs_cons]
                simp only [List.cons_append, List.nil_append, ihx]
            · rw [stepCons_script_span h2 hb] at ihx ⊢
              obtain ⟨hbne, hbfree, hdec⟩ := braceSplit_decomp hb
              simp only [List.cons_append, List.append_assoc,
                List.singleton_append, List.nil_append] at ihx ⊢
              rw [runNorm_cons, stepCons_script_span h2 (braceSplit_build hbne hbfree)]
              simp only [List.cons_append, List.append_assoc,
                List.singleton_append, List.nil_append, ihx]
          · rw [stepCons_script_alone_cons h2 hlb] at ihx ⊢
            have hrel := runNorm_scanrel rl (c2::t2).length (c2::t2) le_rfl
            rcases rl with _ | _
            · simp only [Bool.false_eq_true, if_false, List.cons_append,
                List.nil_append] at ihx ⊢
              rcases scanrel_head hrel with ⟨ys, hy⟩ | ⟨ys, hy⟩
              · rw [hy] at ihx ⊢
                rw [runNorm_cons, stepCons_script_alone_cons h2 hlb]
                simp only [Bool.false_eq_true, if_false, List.cons_append,
                  List.nil_append, ihx]
              · rw [hy] at ihx ⊢
                rw [runNorm_cons, stepCons_script_alone_cons h2 (by decide)]
                simp only [Bool.false_eq_true, if_false, List.cons_append,
                  List.nil_append, ihx]
            · simp only [if_true, List.cons_append, List.nil_append] at ihx ⊢
              rw [runNorm_cons, stepCons_bs_cons]
              simp only [List.cons_append, List.nil_append, ihx]
      by_cases h4 : c = '['
      · subst h4
        rcases hc : chemParse t with _ | ⟨⟨co, suf, af⟩⟩
        · rcases ht : tupParse t with _ | ⟨⟨pre, cl, af⟩⟩
          · rw [stepCons_lb_plain hc ht] at ihx ⊢
            simp only [List.cons_append, List.nil_append] at ihx ⊢
            rw [runNorm_cons]
            have hrel := runNorm_scanrel rl t.length t le_rfl
            have hc2 : chemParse (runNorm rl t) = none := by
              rcases hcp : chemParse (runNorm rl t) with _ | ⟨⟨co2, suf2, af2⟩⟩
              · rfl
              · rcases chem_pullback hrel hcp with h0 | h0
                · exact absurd hc h0
                · exact absurd ht h0
            have ht2 : tupParse (runNorm rl t) = none := by
              rcases htp : tupParse (runNorm rl t) with _ | ⟨⟨pre2, cl2, af2⟩⟩
              · rfl
              · exact absurd ht (tup_pullback hrel htp)
            rw [stepCons_lb_plain hc2 ht2]
            simp only [List.cons_append, List.nil_append, ihx]
          · rw [stepCons_lb_tup hc ht] at ihx ⊢
            obtain ⟨hpre, hcl, hparts, hdec⟩ := tupParse_decomp ht
            simp only [List.cons_append, List.append_assoc,
              List.singleton_append, List.nil_append] at ihx ⊢
            rw [runNorm_cons]
            rw [hdec] at hc
            rw [stepCons_lb_tup (chemParse_ext hpre hcl hc)
              (tupParse_build hpre hcl hparts)]
            simp only [List.cons_append, List.append_assoc,
              List.singleton_append, List.nil_append, ihx]
        · rw [stepCons_chem hc] at ihx ⊢
          obtain ⟨u, a, hdec, hco, hu, ha, hsu, haf⟩ := chemParse_decomp hc
          simp only [List.cons_append, List.append_assoc] at ihx ⊢
          rw [runNorm_cons]
          have hafX : headNot isChargeC (runNorm rl af) :=
            runNorm_headNot (by decide) rl haf
          have hb2 : chemParse (co ++ ']'::(suf ++ runNorm rl af))
              = some (co, suf, runNorm rl af) := by
            rw [hco]
            simp only [List.cons_append]
            exact chemParse_build hu ha hsu hafX
          rw [stepCons_chem hb2]
          simp only [List.cons_append, List.append_assoc, ihx]
      by_cases h5 : c = '('
      · subst h5
        rcases ht : tupParse t with _ | ⟨⟨pre, cl, af⟩⟩
        · rw [stepCons_lp_plain ht] at ihx ⊢
          simp only [List.cons_append, List.nil_append] at ihx ⊢
          rw [runNorm_cons]
          have hrel := runNorm_scanrel rl t.length t le_rfl
          have ht2 : tupParse (runNorm rl t) = none := by
            rcases htp : tupParse (runNorm rl t) with _ | ⟨⟨pre2, cl2, af2⟩⟩
            · rfl
            · exact absurd ht (tup_pullback hrel htp)
          rw [stepCons_lp_plain ht2]
          simp only [List.cons_append, List.nil_append, ihx]
        · rw [stepCons_lp_tup ht] at ihx ⊢
          obtain ⟨hpre, hcl, hparts, hdec⟩ := tupParse_decomp ht
          simp only [List.cons_append, List.append_assoc,
            List.singleton_append, List.nil_append] at ihx ⊢
          rw [runNorm_cons]
          rw [stepCons_lp_tup (tupParse_build hpre hcl hparts)]
          simp only [List.cons_append, List.append_assoc,
            List.singleton_append, List.nil_append, ihx]
      by_cases h6 : c.isDigit
      · rw [stepCons_digit t h6] at ihx ⊢
        simp only [List.cons_append, List.append_assoc] at ihx ⊢
        have htr := trail_all_comma ((c::t).takeWhile isNumC)
        have hX := runNorm_commas rl
          ((((c::t).takeWhile isNumC).reverse.takeWhile (fun x => x = ',')).reverse)
          htr ((c::t).dropWhile isNumC)
        rw [hX] at ihx ⊢
        have hcm : c ∈ (c::t).takeWhile isNumC := by
          rw [List.takeWhile_cons_of_pos (by simp [isNumC, h6])]
          exact List.mem_cons_self c _
        have hne := tok_ne_nil hcm (digit_ne_comma h6)
        have hY : headNot isNumC (runNorm rl ((c::t).dropWhile isNumC)) :=
          runNorm_headNot (by decide) rl (headNot_of_dropWhile (c::t))
        obtain ⟨qq, dd, hqd, hdnc⟩ := tok_last_decomp hne
        rcases htokshape : (((c::t).takeWhile isNumC).reverse.dropWhile
            (fun x => x = ',')).reverse with _ | ⟨c0, q2⟩
        · exact absurd htokshape hne
        have h0 := tok_trail_append ((c::t).takeWhile isNumC)
        rw [htokshape] at h0
        rw [List.takeWhile_cons_of_pos (by simp [isNumC, h6])] at h0
        simp only [List.cons_append] at h0
        obtain ⟨hc0, -⟩ := List.cons.inj h0
        subst hc0
        have hq : ∀ ch ∈ c0::q2, isNumC ch = true := by
          intro ch hm
          rw [← htokshape] at hm
          exact List.mem_takeWhile_imp (tok_sub _ ch hm)
        have hqlast : headNot (fun x => x = ',') ((c0::q2).reverse) := by
          have hrh := tok_rev_head ((c0::t).takeWhile isNumC)
          rw [htokshape] at hrh
          exact hrh
        by_cases hs : strictShape (c0::q2) = true
        · rw [processTok, if_pos hs]
          have hfc : (c0::q2).filter (fun x => !(x = ','))
              = c0 :: q2.filter (fun x => !(x = ',')) := by
            simp [digit_ne_comma h6]
          rw [hfc]
          have hfsub : ∀ ch ∈ c0 :: q2.filter (fun x => !(x = ',')), isNumC ch = true := by
            intro ch hm
            rcases List.mem_cons.1 hm with hm0 | hm0
            · subst hm0; simp [isNumC, h6]
            · exact hq ch (List.mem_cons_of_mem _ (List.mem_of_mem_filter hm0))
          have hfdig : ∀ ch ∈ c0 :: q2.filter (fun x => !(x = ',')), ch.isDigit = true := by
            intro ch hm
            rcases List.mem_cons.1 hm with hm0 | hm0
            · subst hm0; exact h6
            · have hp := List.of_mem_filter hm0
              have hn := hq ch (List.mem_cons_of_mem _ (List.mem_of_mem_filter hm0))
              rw [isNumC, Bool.or_eq_true] at hn
              rcases hn with hn1 | hn1
              · exact hn1
              · exact absurd (by simpa using hn1) (by simpa using hp)
          have hffilt : (c0::q2).filter (fun x => !(x = ','))
              = qq.filter (fun x => !(x = ',')) ++ [dd] := by
            rw [htokshape] at hqd
            rw [hqd, List.filter_append]
            simp [hdnc]
          have hflast : headNot (fun x => x = ',')
              ((c0 :: q2.filter (fun x => !(x = ','))).reverse) := by
            rw [← hfc, hffilt, List.reverse_append]
            simp only [List.reverse_cons, List.reverse_nil, List.nil_append,
              List.singleton_append, List.cons_append]
            simp [headNot, hdnc]
          have hfns : strictShape (c0 :: q2.filter (fun x => !(x = ','))) = false :=
            strictShape_all_digits hfdig
          simp only [List.cons_append, List.append_assoc]
          rw [runNorm_cons, stepCons_numeric2 h6 hfsub hflast htr hY hfns]
          simp only [List.cons_append, List.append_assoc, ihx]
        · have hns : strictShape (c0::q2) = false := by simpa using hs
          rw [processTok, if_neg hs]
          simp only [List.cons_append, List.append_assoc]
          rw [runNorm_cons, stepCons_numeric2 h6 hq hqlast htr hY hns]
          simp only [List.cons_append, List.append_assoc, ihx]
      by_cases h7 : isEscC c
      · rw [stepCons_esc t h7] at ihx ⊢
        rcases rl with _ | _
        · simp only [Bool.false_eq_true, if_false, List.cons_append,
            List.nil_append] at ihx ⊢
          rw [runNorm_cons, stepCons_esc _ h7]
          simp only [Bool.false_eq_true, if_false, List.cons_append,
            List.nil_append, ihx]
        · simp only [if_true, List.cons_append, List.nil_append] at ihx ⊢
          rw [runNorm_cons, stepCons_bs_cons]
          simp only [List.cons_append, List.nil_append, ihx]
      have h6f : c.isDigit = false := by simpa using h6
      have h7f : isEscC c = false := by simpa using h7
      have h2a : c ≠ '^' := fun hx => h2 (Or.inl hx)
      have h2b : c ≠ '_' := fun hx => h2 (Or.inr hx)
      rw [stepCons_plain t h1 h2a h2b h4 h5 h6f h7f] at ihx ⊢
      simp only [List.cons_append, List.nil_append] at ihx ⊢
      rw [runNorm_cons, stepCons_plain _ h1 h2a h2b h4 h5 h6f h7f]
      simp only [List.cons_append, List.nil_append, ihx]

theorem runNorm_idem (rl : Bool) (l : List Char) :
    runNorm rl (runNorm rl l) = runNorm rl l :=
  runNorm_idem_aux rl l.length l le_rfl

/-- C2: Idempotence of the normalizer (modelled from the spec, the
normalization module being absent from the snapshot): for every string and
every configuration, re-running `preprocess_text_to_latex` on its own text
output with the same configuration returns that text unchanged. -/
theorem c2_normalizer_idempotent (s : String) (cfg : TransformConfig) :
    (preprocess_text_to_latex (preprocess_text_to_latex s cfg).1 cfg).1
      = (preprocess_text_to_latex s cfg).1 := by
  show String.mk (runNorm cfg.renderLatex
      (String.mk (runNorm cfg.renderLatex s.data)).data)
    = String.mk (runNorm cfg.renderLatex s.data)
  rw [show (String.mk (runNorm cfg.renderLatex s.data)).data
      = runNorm cfg.renderLatex s.data from rfl]
  rw [runNorm_idem]
